import Mathlib

/-!
# Verification of the lesson programs

The definitions of four programs come first, each in its own namespace, followed by the
theorems about them:

* `BinaryFile`: the custom binary file format of `binary_file_operations.c`;
* `MathLibrary`: `gcd`, `lcm` and `isPrime` of `math_library.c`;
* `ArrayAlgorithms`: `binarySearch`, `bubbleSort` and `insertionSort` of `array_algorithms.c`;
* `StringProcessing`: `findSubstring`, `trimWhitespace` and `countWords` of
  `string_processing.c`.

# Custom binary file format of `binary_file_operations.c`

Shallow embedding of `calculate_checksum` and of the writer and reader halves of
`demonstrate_binary_file_format`
(`src/intermediate/lesson-10-file-handling/binary_file_operations.c`).

* A file and a stream are lists of bytes (`Nat` below 256).
* `uint16_t` / `uint32_t` values are `Nat` with explicit reduction modulo `2^16` / `2^32`;
  a C `int` is an `Int` in the range `-2^31 .. 2^31 - 1`.
* The host is a parameter: its byte order (`Endian`) and the bytes the compiler
  leaves between `version` and `record_count` in `FileHeader` (struct padding).
  `size_t` is 64 bits wide.
-/

namespace BinaryFile

/-- Byte order of the host running the program. -/
inductive Endian
  | little
  | big
  deriving DecidableEq, Repr

/-- Conversion of a C `int` to `uint32_t` (reduction modulo `2^32`). -/
def to_uint32 (x : Int) : Nat := (x % 4294967296).toNat

/-- The two bytes of a `uint16_t` object in host memory. -/
def mem16 (e : Endian) (v : Nat) : List Nat :=
  match e with
  | .big => [v / 256 % 256, v % 256]
  | .little => [v % 256, v / 256 % 256]

/-- The four bytes of a `uint32_t` object in host memory. -/
def mem32 (e : Endian) (v : Nat) : List Nat :=
  match e with
  | .big => [v / 16777216 % 256, v / 65536 % 256, v / 256 % 256, v % 256]
  | .little => [v % 256, v / 256 % 256, v / 65536 % 256, v / 16777216 % 256]

/-- The `uint16_t` value held by two bytes of host memory. -/
def load16 (e : Endian) : List Nat → Nat
  | [b0, b1] =>
    match e with
    | .big => b0 * 256 + b1
    | .little => b1 * 256 + b0
  | _ => 0

/-- The `uint32_t` value held by four bytes of host memory. -/
def load32 (e : Endian) : List Nat → Nat
  | [b0, b1, b2, b3] =>
    match e with
    | .big => b0 * 16777216 + b1 * 65536 + b2 * 256 + b3
    | .little => b3 * 16777216 + b2 * 65536 + b1 * 256 + b0
  | _ => 0

/-- Byte swap of a 16-bit value. -/
def bswap16 (v : Nat) : Nat := v % 256 * 256 + v / 256 % 256

/-- Byte swap of a 32-bit value. -/
def bswap32 (v : Nat) : Nat :=
  v % 256 * 16777216 + v / 256 % 256 * 65536 + v / 65536 % 256 * 256 + v / 16777216 % 256

/-- Library `htons`: host to network (big-endian) order, 16 bits. -/
def htons (e : Endian) (v : Nat) : Nat :=
  match e with
  | .big => v % 65536
  | .little => bswap16 v

/-- Library `htonl`: host to network (big-endian) order, 32 bits. -/
def htonl (e : Endian) (v : Nat) : Nat :=
  match e with
  | .big => v % 4294967296
  | .little => bswap32 v

/-- Library `ntohs`: network to host order, 16 bits. -/
def ntohs (e : Endian) (v : Nat) : Nat := htons e v

/-- Library `ntohl`: network to host order, 32 bits. -/
def ntohl (e : Endian) (v : Nat) : Nat := htonl e v

/-- One iteration of the loop body of `calculate_checksum`:
`checksum = (checksum << 1) ^ bytes[i]` on a `uint32_t`. -/
def checksum_step (checksum b : Nat) : Nat := ((checksum <<< 1) % 4294967296) ^^^ b

/-- The loop `for (size_t i = ...; i < size; i++)` of `calculate_checksum`, started at
index `i` with the given number of iterations left. An index past the end of `bytes` reads 0;
every call in the program passes the exact size of the array. -/
def checksum_loop (bytes : List Nat) : Nat → Nat → Nat → Nat
  | 0, _, checksum => checksum
  | k + 1, i, checksum => checksum_loop bytes k (i + 1) (checksum_step checksum (bytes.getD i 0))

/-- Source `calculate_checksum(data, size)`: `bytes` is the memory `data` points to. -/
def calculate_checksum (bytes : List Nat) (size : Nat) : Nat :=
  checksum_loop bytes size 0 0

/-- The checksum as the specification words it: start from 0 and, for each byte in order,
replace the checksum by `((checksum << 1) XOR b)` reduced modulo `2^32`. -/
def checksum_spec (bytes : List Nat) : Nat :=
  bytes.foldl (fun checksum b => ((checksum <<< 1) ^^^ b) % 4294967296) 0

/-- Source `FileHeader`; the multi-byte fields hold the values as stored in the struct. -/
structure FileHeader where
  magic : List Nat
  version : Nat
  record_count : Nat
  checksum : Nat
  deriving DecidableEq, Repr

/-- The bytes of the string literal `"MYFT"`. -/
def MAGIC : List Nat := [77, 89, 70, 84]

/-- Value of `sizeof(FileHeader)` when the compiler inserts `padLen` bytes between `version`
and `record_count` (the one place where the alignment of the fields can call for padding). -/
def sizeof_FileHeader (padLen : Nat) : Nat := 4 + 2 + padLen + 4 + 4

/-- The bytes `fwrite(&header, sizeof(FileHeader), 1, file)` appends: the struct as it lies in
host memory, `pad` being the content of its padding bytes. -/
def fwrite_header (e : Endian) (pad : List Nat) (h : FileHeader) : List Nat :=
  h.magic ++ mem16 e h.version ++ pad ++ mem32 e h.record_count ++ mem32 e h.checksum

/-- Host memory of an `int` array. -/
def int_array_bytes (e : Endian) : List Int → List Nat
  | [] => []
  | x :: rest => mem32 e (to_uint32 x) ++ int_array_bytes e rest

/-- Host memory of a `uint32_t` array. -/
def uint32_array_bytes (e : Endian) : List Nat → List Nat
  | [] => []
  | v :: rest => mem32 e v ++ uint32_array_bytes e rest

/-- The write loop: `network_value = htonl(data[i]); fwrite(&network_value, 4, 1, file)`. -/
def write_records (e : Endian) : List Int → List Nat
  | [] => []
  | x :: rest => mem32 e (htonl e (to_uint32 x)) ++ write_records e rest

/-- The header built by the writer half of `demonstrate_binary_file_format` (lines 299-304);
`data_count` is the `int` number of records and `sizeof(data)` is four times that. -/
def build_header (e : Endian) (data : List Int) : FileHeader :=
  { magic := MAGIC
    version := htons e 1
    record_count := htonl e (to_uint32 (data.length : Int))
    checksum := htonl e (calculate_checksum (int_array_bytes e data) (4 * data.length)) }

/-- Writer half of `demonstrate_binary_file_format` (lines 292-320), with the records as a
parameter: the content of the file after `fclose`. -/
def write_file (e : Endian) (pad : List Nat) (data : List Int) : List Nat :=
  fwrite_header e pad (build_header e data) ++ write_records e data

/-- Source `fread(&read_header, sizeof(FileHeader), 1, file)`: `none` when fewer than
`sizeof(FileHeader)` bytes are available (the call does not return 1), otherwise the struct
read and the rest of the stream. -/
def fread_header (e : Endian) (padLen : Nat) (file : List Nat) :
    Option (FileHeader × List Nat) :=
  if sizeof_FileHeader padLen ≤ file.length then
    some ({ magic := file.take 4
            version := load16 e ((file.drop 4).take 2)
            record_count := load32 e ((file.drop (6 + padLen)).take 4)
            checksum := load32 e ((file.drop (10 + padLen)).take 4) },
          file.drop (sizeof_FileHeader padLen))
  else none

/-- The read loop: `fread(&network_value, 4, 1, file); read_data[i] = ntohl(network_value)`.
The result of `fread` is not looked at; when fewer than 4 bytes are left, `network_value` keeps
an indeterminate content, given by `junk i`. -/
def read_records (e : Endian) (junk : Nat → Nat) : Nat → Nat → List Nat → List Nat
  | 0, _, _ => []
  | k + 1, i, b0 :: b1 :: b2 :: b3 :: rest =>
    ntohl e (load32 e [b0, b1, b2, b3]) :: read_records e junk k (i + 1) rest
  | k + 1, i, _ =>
    ntohl e (junk i % 4294967296) :: read_records e junk k (i + 1) []

/-- What the reader half prints after a header was accepted. -/
structure ReadReport where
  version : Nat
  record_count : Nat
  stored_checksum : Nat
  calculated_checksum : Nat
  /-- The mark printed after the calculated checksum: `true` for "✓", `false` for "✗". -/
  checksum_ok : Bool
  /-- The values printed by the "Data records" loop (`read_data`, as `uint32_t`). -/
  records : List Nat
  deriving DecidableEq, Repr

/-- Outcome of the reader half of `demonstrate_binary_file_format`. -/
inductive ReadOutcome
  /-- The header `fread` did not return 1: "Failed to read file header". -/
  | header_read_failed
  /-- The magic bytes differ from `"MYFT"`: "Invalid file format (bad magic number)". -/
  | bad_magic
  /-- The header was accepted; the report and the data records were printed. -/
  | displayed (report : ReadReport)
  deriving DecidableEq, Repr

/-- Reader half of `demonstrate_binary_file_format` (lines 323-377) on a file with the given
content. `malloc` is taken to succeed. -/
def read_file (e : Endian) (padLen : Nat) (junk : Nat → Nat) (file : List Nat) : ReadOutcome :=
  match fread_header e padLen file with
  | none => .header_read_failed
  | some (read_header, stream) =>
    if read_header.magic ≠ MAGIC then .bad_magic
    else
      let version := ntohs e read_header.version
      let record_count := ntohl e read_header.record_count
      let stored_checksum := ntohl e read_header.checksum
      let read_data := read_records e junk record_count 0 stream
      let calculated_checksum :=
        calculate_checksum (uint32_array_bytes e read_data)
          (record_count * 4 % 18446744073709551616)
      .displayed
        { version := version
          record_count := record_count
          stored_checksum := stored_checksum
          calculated_checksum := calculated_checksum
          checksum_ok := decide (calculated_checksum = stored_checksum)
          records := read_data }

/-- The sample records of `demonstrate_binary_file_format`. -/
def demo_data : List Int := [100, 200, 300, 400, 500]

/-- The four bytes of a 32-bit value, most significant byte first. -/
def big_endian_bytes (v : Nat) : List Nat :=
  [v / 16777216 % 256, v / 65536 % 256, v / 256 % 256, v % 256]

/-- The file with bit `bit` of the byte at offset `pos` inverted. -/
def flip_bit (file : List Nat) (pos bit : Nat) : List Nat :=
  file.modify (fun b => b ^^^ 2 ^ bit) pos

/-- Index, in the host memory of the decoded `read_data` array, of the byte that the payload
byte at offset `i` ends up in. -/
def host_index (e : Endian) (i : Nat) : Nat :=
  match e with
  | .big => i
  | .little => 4 * (i / 4) + (3 - i % 4)

/-- Host memory of `read_data` after a payload of whole 4-byte groups was decoded: each group
as it is in the file on a big-endian host, reversed on a little-endian host. -/
def host_memory_of_payload (e : Endian) : List Nat → List Nat
  | b0 :: b1 :: b2 :: b3 :: rest =>
    (match e with
      | .big => [b0, b1, b2, b3]
      | .little => [b3, b2, b1, b0]) ++ host_memory_of_payload e rest
  | _ => []

end BinaryFile

/-! # C `int` arithmetic shared by the next programs -/

namespace CInt

/-- Value of an `int` computation after two's complement wraparound to 32 bits. -/
def wrap_int (x : Int) : Int := (x + 2147483648) % 4294967296 - 2147483648

end CInt

/-! # `math_library.c`

`gcd`, `lcm` and `isPrime` of `src/basics/lesson-5-functions/math_library.c`. An `int` is an
`Int`; C's `/` and `%` truncate toward zero (`Int.tdiv`, `Int.tmod`); the product in `lcm` and
the square and increment in `isPrime` wrap around to 32 bits.
-/

namespace MathLibrary

/-- Source `gcd`: `while (b != 0) { temp = b; b = a % b; a = temp; } return a;`. The remainder
is smaller in absolute value than `b`, so the loop ends on every input. -/
def gcd (a b : Int) : Int :=
  if b = 0 then a else gcd b (a.tmod b)
termination_by b.natAbs
decreasing_by
  rename_i hb
  have hpos : 0 < b.natAbs := Int.natAbs_pos.mpr hb
  have hmod : (a.tmod b).natAbs = a.natAbs % b.natAbs := by
    cases a <;> cases b <;> simp [Int.tmod, Int.natAbs_neg] <;> rfl
  rw [hmod]
  exact Nat.mod_lt _ hpos

/-- Source `lcm`: `return (a * b) / gcd(a, b);`, the product being computed in `int`. -/
def lcm (a b : Int) : Int := (CInt.wrap_int (a * b)).tdiv (gcd a b)

/-- The `for (int i = ...; i * i <= number; i++)` loop of `isPrime`, started at `i`, with a bound
on the number of iterations left; `none` when the bound is used up. -/
def isPrime_loop (number : Int) : Nat → Int → Option Int
  | 0, _ => none
  | fuel + 1, i =>
    if CInt.wrap_int (i * i) ≤ number then
      if number.tmod i = 0 then some 0
      else isPrime_loop number fuel (CInt.wrap_int (i + 1))
    else some 1

/-- Source `isPrime`. The loop is given `2^32` iterations, more than the number of values an
`int` counter can take. -/
def isPrime (number : Int) : Option Int :=
  if number < 2 then some 0 else isPrime_loop number 4294967296 2

end MathLibrary

/-! # `array_algorithms.c`

`binarySearch`, `bubbleSort` and `insertionSort` of
`src/intermediate/lesson-6-arrays/array_algorithms.c`. An `int` array is a `List Int`, `arr[i]`
is `arr.getD i 0` and an assignment to `arr[i]` is `arr.set i`. With `size` the length of the
array, every index and bound these functions compute lies between `-1` and `size`, so no `int`
operation overflows.
-/

namespace ArrayAlgorithms

/-- The `while (left <= right)` loop of `binarySearch`. -/
def binarySearch_loop (arr : List Int) (target : Int) (left right : Int) : Int :=
  if left ≤ right then
    let mid := left + (right - left).tdiv 2
    if arr.getD mid.toNat 0 = target then mid
    else if arr.getD mid.toNat 0 < target then binarySearch_loop arr target (mid + 1) right
    else binarySearch_loop arr target left (mid - 1)
  else -1
termination_by (right - left + 1).toNat
decreasing_by
  all_goals
    rename_i hle _ _
    have hdiv := Int.tdiv_eq_ediv (Int.sub_nonneg_of_le hle) (by decide : (0 : Int) ≤ 2)
    rw [hdiv]
    omega

/-- Source `binarySearch`. -/
def binarySearch (arr : List Int) (size target : Int) : Int :=
  binarySearch_loop arr target 0 (size - 1)

/-- The body of the inner loop of `bubbleSort`: swap `arr[j]` and `arr[j + 1]` when they are
out of order. -/
def bubble_swap (arr : List Int) (j : Nat) : List Int :=
  if arr.getD j 0 > arr.getD (j + 1) 0 then
    let temp := arr.getD j 0
    (arr.set j (arr.getD (j + 1) 0)).set (j + 1) temp
  else arr

/-- The inner loop `for (int j = ...; j < size - i - 1; j++)` of `bubbleSort`, started at `j`
with the given number of iterations left. -/
def bubble_inner : Nat → Nat → List Int → List Int
  | 0, _, arr => arr
  | k + 1, j, arr => bubble_inner k (j + 1) (bubble_swap arr j)

/-- The outer loop `for (int i = ...; i < size - 1; i++)` of `bubbleSort`, started at `i` with
the given number of iterations left. -/
def bubble_outer (size : Int) : Nat → Nat → List Int → List Int
  | 0, _, arr => arr
  | k + 1, i, arr =>
    bubble_outer size k (i + 1) (bubble_inner (size - (i : Int) - 1).toNat 0 arr)

/-- Source `bubbleSort`: the array after the call. -/
def bubbleSort (arr : List Int) (size : Int) : List Int :=
  bubble_outer size (size - 1).toNat 0 arr

/-- The inner loop of `insertionSort`, `while (j >= 0 && arr[j] > key)`, followed by
`arr[j + 1] = key`. The counter is `p = j + 1`, which is never negative. -/
def insertion_shift (key : Int) : Nat → List Int → List Int
  | 0, arr => arr.set 0 key
  | p + 1, arr =>
    if arr.getD p 0 > key then insertion_shift key p (arr.set (p + 1) (arr.getD p 0))
    else arr.set (p + 1) key

/-- The outer loop `for (int i = ...; i < size; i++)` of `insertionSort`, started at `i` with
the given number of iterations left. -/
def insertion_outer : Nat → Nat → List Int → List Int
  | 0, _, arr => arr
  | k + 1, i, arr => insertion_outer k (i + 1) (insertion_shift (arr.getD i 0) i arr)

/-- Source `insertionSort`: the array after the call. -/
def insertionSort (arr : List Int) (size : Int) : List Int :=
  insertion_outer (size - 1).toNat 1 arr

/-- The array `sortedArray` of `main`. -/
def sortedArray : List Int := [2, 5, 8, 12, 16, 23, 38, 45, 67, 78]

/-- The array `originalArray` of `main`. -/
def originalArray : List Int := [64, 34, 25, 12, 22, 11, 90, 88, 76, 50, 33, 77]

end ArrayAlgorithms

/-! # `string_processing.c`

`findSubstring`, `trimWhitespace` and `countWords` of
`src/intermediate/lesson-7-strings/string_processing.c`. A C string is the list of its
characters before the terminating NUL, each a `Nat`.
-/

namespace StringProcessing

/-- Source `int len = strlen(s);`: the length converted to `int`. -/
def strlen_int (s : List Nat) : Int := CInt.wrap_int (s.length : Int)

/-- The inner loop `for (j = ...; j < patternLen; j++)` of `findSubstring` at text position `i`,
started at `j` with the given number of iterations left: the value of `j` when the loop is
left, by `break` or at its end. -/
def match_loop (text pattern : List Nat) (i : Nat) : Nat → Nat → Nat
  | 0, j => j
  | k + 1, j =>
    if text.getD (i + j) 0 ≠ pattern.getD j 0 then j
    else match_loop text pattern i k (j + 1)

/-- The outer loop `for (int i = ...; i <= textLen - patternLen; i++)` of `findSubstring`,
started at `i` with the given number of iterations left. -/
def findSubstring_loop (text pattern : List Nat) (patternLen : Int) : Nat → Nat → Int
  | 0, _ => -1
  | k + 1, i =>
    if (match_loop text pattern i patternLen.toNat 0 : Int) = patternLen then (i : Int)
    else findSubstring_loop text pattern patternLen k (i + 1)

/-- Source `findSubstring`. -/
def findSubstring (text pattern : List Nat) : Int :=
  let textLen := strlen_int text
  let patternLen := strlen_int pattern
  if patternLen = 0 then 0
  else if patternLen > textLen then -1
  else findSubstring_loop text pattern patternLen (textLen - patternLen + 1).toNat 0

/-- The pattern occurs in the text starting at index `i`: the `pattern.length` characters of the
text from `i` on are the pattern. -/
@[reducible] def occurs_at (text pattern : List Nat) (i : Nat) : Prop :=
  (text.drop i).take pattern.length = pattern

/-! ## `trimWhitespace` and `countWords`

Both work on a character buffer, a list of `Nat` in which the string is what comes before the
first NUL; an index past the end of the list reads as NUL. -/

/-- Library `isspace` in the "C" locale, which the program never changes: true of the space
and of the characters 9 to 13 (`\t`, `\n`, `\v`, `\f`, `\r`), false of every other character. -/
def isspace (c : Nat) : Bool := c == 32 || (decide (9 ≤ c) && decide (c ≤ 13))

/-- Library `strlen`: the number of characters before the first NUL of the buffer. -/
def strlen (str : List Nat) : Nat := (str.takeWhile (fun c => c != 0)).length

/-- The C string a buffer holds: its characters before the first NUL. -/
def c_string (str : List Nat) : List Nat := str.takeWhile (fun c => c != 0)

/-- The loop `while (isspace(str[start])) start++;` of `trimWhitespace`. -/
def skip_leading (str : List Nat) (start : Nat) : Nat :=
  if h : isspace (str.getD start 0) = true then skip_leading str (start + 1) else start
termination_by str.length - start
decreasing_by
  have hlt : start < str.length := by
    by_contra hge
    rw [List.getD_eq_default _ _ (by omega)] at h
    exact absurd h (by decide)
  omega

/-- The loop `for (int i = start; str[i] != '\0'; i++)` of `trimWhitespace`, which copies the
string to the front of the buffer, followed by `str[writeIndex] = '\0'`. -/
def shift_left (str : List Nat) (i writeIndex : Nat) : List Nat :=
  if h : str.getD i 0 ≠ 0 then
    shift_left (str.set writeIndex (str.getD i 0)) (i + 1) (writeIndex + 1)
  else str.set writeIndex 0
termination_by str.length - i
decreasing_by
  have hlt : i < str.length := by
    by_contra hge
    exact h (List.getD_eq_default _ _ (by omega))
  rw [List.length_set]
  omega

/-- The loop `while (end >= 0 && isspace(str[end]))` of `trimWhitespace`, which overwrites the
trailing whitespace with NUL. The counter is `p = end + 1`, which is never negative. -/
def trim_trailing : Nat → List Nat → List Nat
  | 0, str => str
  | p + 1, str => if isspace (str.getD p 0) then trim_trailing p (str.set p 0) else str

/-- Source `trimWhitespace`: the buffer after the call. `strlen(str) - 1` is computed in
`size_t` and converted to `int`, which is `-1` for the empty string. -/
def trimWhitespace (str : List Nat) : List Nat :=
  let start := skip_leading str 0
  let shifted := shift_left str start 0
  let last := CInt.wrap_int ((strlen shifted : Int) - 1)
  trim_trailing (last + 1).toNat shifted

/-- The loop `for (int i = 0; str[i] != '\0'; i++)` of `countWords`, with the state `inWord`
and `count`. -/
def countWords_loop (str : List Nat) (i : Nat) (inWord : Bool) (count : Int) : Int :=
  if h : str.getD i 0 ≠ 0 then
    if isspace (str.getD i 0) then countWords_loop str (i + 1) false count
    else if !inWord then countWords_loop str (i + 1) true (CInt.wrap_int (count + 1))
    else countWords_loop str (i + 1) inWord count
  else count
termination_by str.length - i
decreasing_by
  all_goals
    have hlt : i < str.length := by
      by_contra hge
      exact h (List.getD_eq_default _ _ (by omega))
    omega

/-- Source `countWords` on the buffer `str`; the function of the same name in
`utility_functions.c` has the same body, with an `int` flag for `inWord`. -/
def countWords (str : List Nat) : Int := countWords_loop str 0 false 0

/-- The maximal runs of consecutive non-whitespace characters of a string: the non-empty
pieces between its whitespace characters. -/
def word_runs (s : List Nat) : List (List Nat) :=
  (s.splitOnP isspace).filter (fun w => !w.isEmpty)

/-- Whether a string begins with a character that is not whitespace. -/
def starts_word : List Nat → Bool
  | [] => false
  | c :: _ => !isspace c

/-- The specified result of trimming: the leading run and the trailing run of whitespace
removed. -/
def trim_spec (s : List Nat) : List Nat := (s.dropWhile isspace).rdropWhile isspace

end StringProcessing

/-! # Theorems about `binary_file_operations.c` -/

namespace BinaryFile

/-! ## Byte-order lemmas -/

theorem to_uint32_lt (x : Int) : to_uint32 x < 4294967296 := by
  unfold to_uint32
  omega

theorem mem32_length (e : Endian) (v : Nat) : (mem32 e v).length = 4 := by
  cases e <;> rfl

theorem mem16_length (e : Endian) (v : Nat) : (mem16 e v).length = 2 := by
  cases e <;> rfl

theorem mem32_big_of_bytes (b0 b1 b2 b3 : Nat) (h0 : b0 < 256) (h1 : b1 < 256) (h2 : b2 < 256)
    (h3 : b3 < 256) :
    mem32 .big (b0 * 16777216 + b1 * 65536 + b2 * 256 + b3) = [b0, b1, b2, b3] := by
  simp only [mem32, List.cons.injEq, and_true]
  refine ⟨?_, ?_, ?_, ?_⟩ <;> omega

theorem mem32_little_of_bytes (b0 b1 b2 b3 : Nat) (h0 : b0 < 256) (h1 : b1 < 256)
    (h2 : b2 < 256) (h3 : b3 < 256) :
    mem32 .little (b0 * 16777216 + b1 * 65536 + b2 * 256 + b3) = [b3, b2, b1, b0] := by
  simp only [mem32, List.cons.injEq, and_true]
  refine ⟨?_, ?_, ?_, ?_⟩ <;> omega

/-- Storing `htonl v` in host memory lays the bytes of `v` out most significant first. -/
theorem mem32_htonl (e : Endian) (v : Nat) (h : v < 4294967296) :
    mem32 e (htonl e v) = mem32 .big v := by
  cases e
  · simp only [htonl, bswap32]
    rw [mem32_little_of_bytes _ _ _ _ (by omega) (by omega) (by omega) (by omega)]
    rfl
  · simp only [mem32, htonl, List.cons.injEq, and_true]
    omega

theorem bswap32_of_bytes (b0 b1 b2 b3 : Nat) (h0 : b0 < 256) (h1 : b1 < 256) (h2 : b2 < 256)
    (h3 : b3 < 256) :
    bswap32 (b0 * 16777216 + b1 * 65536 + b2 * 256 + b3) =
      b3 * 16777216 + b2 * 65536 + b1 * 256 + b0 := by
  have e0 : (b0 * 16777216 + b1 * 65536 + b2 * 256 + b3) % 256 = b3 := by omega
  have e1 : (b0 * 16777216 + b1 * 65536 + b2 * 256 + b3) / 256 % 256 = b2 := by omega
  have e2 : (b0 * 16777216 + b1 * 65536 + b2 * 256 + b3) / 65536 % 256 = b1 := by omega
  have e3 : (b0 * 16777216 + b1 * 65536 + b2 * 256 + b3) / 16777216 % 256 = b0 := by omega
  simp only [bswap32, e0, e1, e2, e3]

theorem bswap16_of_bytes (b0 b1 : Nat) (h0 : b0 < 256) (h1 : b1 < 256) :
    bswap16 (b0 * 256 + b1) = b1 * 256 + b0 := by
  have e0 : (b0 * 256 + b1) % 256 = b1 := by omega
  have e1 : (b0 * 256 + b1) / 256 % 256 = b0 := by omega
  simp only [bswap16, e0, e1]

/-- Decoding what `mem32_htonl` stored gives the value back. -/
theorem ntohl_load32_big (e : Endian) (v : Nat) (h : v < 4294967296) :
    ntohl e (load32 e (mem32 .big v)) = v := by
  cases e
  · simp only [ntohl, mem32, htonl, load32]
    rw [bswap32_of_bytes _ _ _ _ (by omega) (by omega) (by omega) (by omega)]
    omega
  · simp only [ntohl, mem32, htonl, load32]
    omega

theorem mem16_htons (e : Endian) (v : Nat) (h : v < 65536) :
    mem16 e (htons e v) = mem16 .big v := by
  cases e
  · have key : ∀ b0 b1 : Nat, b0 < 256 → b1 < 256 →
        mem16 .little (b0 * 256 + b1) = [b1, b0] := by
      intro b0 b1 h0 h1
      simp only [mem16, List.cons.injEq, and_true]
      constructor <;> omega
    simp only [htons, bswap16]
    rw [key _ _ (by omega) (by omega)]
    rfl
  · simp only [mem16, htons, List.cons.injEq, and_true]
    omega

theorem ntohs_load16_big (e : Endian) (v : Nat) (h : v < 65536) :
    ntohs e (load16 e (mem16 .big v)) = v := by
  cases e
  · simp only [ntohs, mem16, htons, load16]
    rw [bswap16_of_bytes _ _ (by omega) (by omega)]
    omega
  · simp only [ntohs, mem16, htons, load16]
    omega

/-! ## The checksum loop as a fold -/

theorem checksum_loop_append (pre xs : List Nat) (c : Nat) :
    checksum_loop (pre ++ xs) xs.length pre.length c = xs.foldl checksum_step c := by
  induction xs generalizing pre c with
  | nil => rfl
  | cons x xs ih =>
    have hget : (pre ++ x :: xs).getD pre.length 0 = x := by
      rw [List.getD_append_right _ _ _ _ (Nat.le_refl _)]
      simp
    have step := ih (pre ++ [x]) (checksum_step c x)
    simp only [List.append_assoc, List.singleton_append, List.length_append,
      List.length_singleton] at step
    simp only [List.length_cons, checksum_loop, List.foldl_cons, hget]
    exact step

theorem calculate_checksum_eq_foldl (bytes : List Nat) :
    calculate_checksum bytes bytes.length = bytes.foldl checksum_step 0 := by
  have h := checksum_loop_append [] bytes 0
  simpa [calculate_checksum] using h

theorem checksum_step_lt (c b : Nat) (hb : b < 4294967296) :
    checksum_step c b < 4294967296 := by
  unfold checksum_step
  exact Nat.xor_lt_two_pow (n := 32) (Nat.mod_lt _ (by decide)) hb

theorem getD_lt (bytes : List Nat) (bound : Nat) (hpos : 0 < bound)
    (hb : ∀ b ∈ bytes, b < bound) (i : Nat) : bytes.getD i 0 < bound := by
  by_cases hi : i < bytes.length
  · rw [List.getD_eq_getElem _ _ hi]
    exact hb _ (List.getElem_mem _)
  · rw [List.getD_eq_default _ _ (by omega)]
    exact hpos

theorem checksum_loop_lt (bytes : List Nat) (hb : ∀ b ∈ bytes, b < 4294967296)
    (k i c : Nat) (hc : c < 4294967296) : checksum_loop bytes k i c < 4294967296 := by
  induction k generalizing i c with
  | zero => exact hc
  | succ k ih =>
    simp only [checksum_loop]
    exact ih _ _ (checksum_step_lt _ _ (getD_lt bytes _ (by decide) hb i))

theorem calculate_checksum_lt (bytes : List Nat) (hb : ∀ b ∈ bytes, b < 4294967296)
    (size : Nat) : calculate_checksum bytes size < 4294967296 :=
  checksum_loop_lt bytes hb size 0 0 (by decide)

/-! ## Arrays in memory and on disk -/

theorem mem32_byte_lt (e : Endian) (v b : Nat) (hb : b ∈ mem32 e v) : b < 256 := by
  cases e <;> simp only [mem32, List.mem_cons, List.mem_singleton, List.not_mem_nil,
    or_false] at hb <;> omega

theorem uint32_array_bytes_lt (e : Endian) (vs : List Nat) :
    ∀ b ∈ uint32_array_bytes e vs, b < 256 := by
  induction vs with
  | nil => intro b hb; cases hb
  | cons v rest ih =>
    intro b hb
    simp only [uint32_array_bytes, List.mem_append] at hb
    rcases hb with hb | hb
    · exact mem32_byte_lt e v b hb
    · exact ih b hb

theorem int_array_bytes_eq (e : Endian) (data : List Int) :
    int_array_bytes e data = uint32_array_bytes e (data.map to_uint32) := by
  induction data with
  | nil => rfl
  | cons x rest ih => simp only [int_array_bytes, List.map_cons, uint32_array_bytes, ih]

theorem uint32_array_bytes_length (e : Endian) (vs : List Nat) :
    (uint32_array_bytes e vs).length = 4 * vs.length := by
  induction vs with
  | nil => rfl
  | cons v rest ih =>
    simp only [uint32_array_bytes, List.length_append, mem32_length, ih, List.length_cons]
    omega

theorem write_records_eq (e : Endian) (data : List Int) :
    write_records e data = uint32_array_bytes .big (data.map to_uint32) := by
  induction data with
  | nil => rfl
  | cons x rest ih =>
    simp only [write_records, List.map_cons, uint32_array_bytes, ih,
      mem32_htonl e _ (to_uint32_lt x)]

theorem read_records_big (e : Endian) (junk : Nat → Nat) (vs : List Nat)
    (hv : ∀ v ∈ vs, v < 4294967296) (i : Nat) (rest : List Nat) :
    read_records e junk vs.length i (uint32_array_bytes .big vs ++ rest) = vs := by
  induction vs generalizing i with
  | nil => rfl
  | cons v vs ih =>
    have hdec := ntohl_load32_big e v (hv v (List.mem_cons_self _ _))
    simp only [mem32] at hdec
    simp only [uint32_array_bytes, mem32, List.cons_append, List.nil_append, List.length_cons,
      read_records, hdec]
    congr 1
    exact ih (fun w hw => hv w (List.mem_cons_of_mem _ hw)) (i + 1)

/-! ## Reading a header back -/

theorem fread_header_append (e : Endian) (magic vb pad rb cb rest : List Nat)
    (hm : magic.length = 4) (hvb : vb.length = 2) (hrb : rb.length = 4) (hcb : cb.length = 4) :
    fread_header e pad.length (magic ++ vb ++ pad ++ rb ++ cb ++ rest) =
      some ({ magic := magic, version := load16 e vb, record_count := load32 e rb,
              checksum := load32 e cb }, rest) := by
  have hlen : sizeof_FileHeader pad.length ≤ (magic ++ vb ++ pad ++ rb ++ cb ++ rest).length := by
    simp only [List.length_append, sizeof_FileHeader]
    omega
  have h1 : (magic ++ vb ++ pad ++ rb ++ cb ++ rest).take 4 = magic := by
    simp only [List.append_assoc]
    exact List.take_left' hm
  have h2 : ((magic ++ vb ++ pad ++ rb ++ cb ++ rest).drop 4).take 2 = vb := by
    simp only [List.append_assoc]
    rw [List.drop_left' hm]
    exact List.take_left' hvb
  have h3 : ((magic ++ vb ++ pad ++ rb ++ cb ++ rest).drop (6 + pad.length)).take 4 = rb := by
    have : magic ++ vb ++ pad ++ rb ++ cb ++ rest =
        (magic ++ vb ++ pad) ++ (rb ++ (cb ++ rest)) := by
      simp only [List.append_assoc]
    rw [this, List.drop_left' (by simp only [List.length_append]; omega)]
    exact List.take_left' hrb
  have h4 : ((magic ++ vb ++ pad ++ rb ++ cb ++ rest).drop (10 + pad.length)).take 4 = cb := by
    have : magic ++ vb ++ pad ++ rb ++ cb ++ rest =
        (magic ++ vb ++ pad ++ rb) ++ (cb ++ rest) := by
      simp only [List.append_assoc]
    rw [this, List.drop_left' (by simp only [List.length_append]; omega)]
    exact List.take_left' hcb
  have h5 : (magic ++ vb ++ pad ++ rb ++ cb ++ rest).drop (sizeof_FileHeader pad.length) = rest := by
    exact List.drop_left' (by simp only [List.length_append, sizeof_FileHeader]; omega)
  simp only [fread_header, hlen, if_true, h1, h2, h3, h4, h5]

theorem checksum_of_data_lt (e : Endian) (data : List Int) (size : Nat) :
    calculate_checksum (int_array_bytes e data) size < 4294967296 :=
  calculate_checksum_lt _
    (fun b hb => by
      rw [int_array_bytes_eq] at hb
      exact Nat.lt_trans (uint32_array_bytes_lt e _ b hb) (by decide)) _

/-- The written file, byte for byte: every multi-byte field most significant byte first. -/
theorem write_file_eq (e : Endian) (pad : List Nat) (data : List Int)
    (hlen : data.length < 2147483648) :
    write_file e pad data =
      MAGIC ++ mem16 .big 1 ++ pad ++ mem32 .big data.length ++
        mem32 .big (calculate_checksum (int_array_bytes e data) (4 * data.length)) ++
        uint32_array_bytes .big (data.map to_uint32) := by
  have hcount : to_uint32 (data.length : Int) = data.length := by
    unfold to_uint32
    omega
  simp only [write_file, fwrite_header, build_header, hcount, write_records_eq,
    mem16_htons e 1 (by decide), mem32_htonl e _ (checksum_of_data_lt e data _),
    mem32_htonl e data.length (by omega)]

/-- Outcome of reading a file that starts with a well-formed version 1 header. -/
theorem read_file_of_header (e : Endian) (pad : List Nat) (junk : Nat → Nat) (n cs : Nat)
    (hn : n < 4294967296) (hcs : cs < 4294967296) (payload : List Nat) :
    read_file e pad.length junk
        (MAGIC ++ mem16 .big 1 ++ pad ++ mem32 .big n ++ mem32 .big cs ++ payload) =
      .displayed
        { version := 1
          record_count := n
          stored_checksum := cs
          calculated_checksum :=
            calculate_checksum (uint32_array_bytes e (read_records e junk n 0 payload)) (4 * n)
          checksum_ok :=
            decide (calculate_checksum
              (uint32_array_bytes e (read_records e junk n 0 payload)) (4 * n) = cs)
          records := read_records e junk n 0 payload } := by
  rw [read_file, fread_header_append e MAGIC _ pad _ _ _ rfl (mem16_length _ _)
    (mem32_length _ _) (mem32_length _ _)]
  have hsize : n * 4 % 18446744073709551616 = 4 * n := by omega
  simp only [ne_eq, not_true_eq_false, if_false, ntohs_load16_big e 1 (by decide),
    ntohl_load32_big e _ hcs, ntohl_load32_big e n hn, hsize]

/-- Full outcome of reading back a file the writer produced. -/
theorem read_write_file (e : Endian) (pad : List Nat) (junk : Nat → Nat) (data : List Int)
    (hlen : data.length < 2147483648) :
    read_file e pad.length junk (write_file e pad data) =
      .displayed
        { version := 1
          record_count := data.length
          stored_checksum := calculate_checksum (int_array_bytes e data) (4 * data.length)
          calculated_checksum := calculate_checksum (int_array_bytes e data) (4 * data.length)
          checksum_ok := true
          records := data.map to_uint32 } := by
  rw [write_file_eq e pad data hlen,
    read_file_of_header e pad junk _ _ (by omega) (checksum_of_data_lt e data _)]
  have hrec := read_records_big e junk (data.map to_uint32)
    (fun v hv => by
      obtain ⟨x, _, rfl⟩ := List.mem_map.mp hv
      exact to_uint32_lt x) 0 []
  simp only [List.length_map, List.append_nil] at hrec
  simp only [hrec, int_array_bytes_eq, decide_True]

/-! ## Flipping one payload bit -/

theorem mem32_ntohl_load32 (e : Endian) (b0 b1 b2 b3 : Nat) (h0 : b0 < 256) (h1 : b1 < 256)
    (h2 : b2 < 256) (h3 : b3 < 256) :
    mem32 e (ntohl e (load32 e [b0, b1, b2, b3])) =
      match e with
      | .big => [b0, b1, b2, b3]
      | .little => [b3, b2, b1, b0] := by
  cases e
  · simp only [ntohl, htonl, load32]
    rw [bswap32_of_bytes _ _ _ _ h3 h2 h1 h0, mem32_little_of_bytes _ _ _ _ h0 h1 h2 h3]
  · simp only [ntohl, htonl, load32]
    rw [Nat.mod_eq_of_lt (by omega), mem32_big_of_bytes _ _ _ _ h0 h1 h2 h3]

theorem uint32_array_bytes_read_records (e : Endian) (junk : Nat → Nat) (n i : Nat)
    (payload : List Nat) (hlen : payload.length = 4 * n) (hb : ∀ b ∈ payload, b < 256) :
    uint32_array_bytes e (read_records e junk n i payload) =
      host_memory_of_payload e payload := by
  induction n generalizing i payload with
  | zero =>
    have hnil : payload = [] := List.length_eq_zero.mp (by omega)
    subst hnil
    rfl
  | succ n ih =>
    match payload, hlen, hb with
    | b0 :: b1 :: b2 :: b3 :: rest, hlen, hb =>
      have h0 : b0 < 256 := hb b0 (by simp)
      have h1 : b1 < 256 := hb b1 (by simp)
      have h2 : b2 < 256 := hb b2 (by simp)
      have h3 : b3 < 256 := hb b3 (by simp)
      have hrest : rest.length = 4 * n := by
        simp only [List.length_cons] at hlen
        omega
      simp only [read_records, uint32_array_bytes, host_memory_of_payload,
        mem32_ntohl_load32 e b0 b1 b2 b3 h0 h1 h2 h3]
      rw [ih (i + 1) rest hrest (fun b hmem => hb b (by simp [hmem]))]
    | [], hlen, _ =>
      simp only [List.length_cons, List.length_nil] at hlen
      omega
    | [_], hlen, _ =>
      simp only [List.length_cons, List.length_nil] at hlen
      omega
    | [_, _], hlen, _ =>
      simp only [List.length_cons, List.length_nil] at hlen
      omega
    | [_, _, _], hlen, _ =>
      simp only [List.length_cons, List.length_nil] at hlen
      omega

theorem flip_bit_append (header payload : List Nat) (i bit : Nat) :
    flip_bit (header ++ payload) (header.length + i) bit = header ++ flip_bit payload i bit := by
  induction header with
  | nil => simp only [List.nil_append, List.length_nil, Nat.zero_add]
  | cons h rest ih =>
    have hidx : (h :: rest).length + i = (rest.length + i) + 1 := by
      simp only [List.length_cons]
      omega
    rw [hidx]
    simp only [flip_bit, List.cons_append, List.modify_succ_cons] at ih ⊢
    rw [ih]

theorem flip_bit_length (xs : List Nat) (i bit : Nat) : (flip_bit xs i bit).length = xs.length := by
  simp only [flip_bit, List.length_modify]

theorem flip_bit_lt (xs : List Nat) (i bit : Nat) (hbit : bit < 8) (hb : ∀ b ∈ xs, b < 256) :
    ∀ b ∈ flip_bit xs i bit, b < 256 := by
  induction xs generalizing i with
  | nil =>
    intro b hmem
    simp only [flip_bit, List.modify_nil, List.not_mem_nil] at hmem
  | cons x rest ih =>
    intro b hmem
    cases i with
    | zero =>
      simp only [flip_bit, List.modify_zero_cons, List.mem_cons] at hmem
      rcases hmem with rfl | hmem
      · have hx : x < 2 ^ 8 := hb x (by simp)
        have hp : 2 ^ bit < 2 ^ 8 := Nat.pow_lt_pow_right (by decide) hbit
        exact Nat.xor_lt_two_pow hx hp
      · exact hb b (by simp [hmem])
    | succ j =>
      simp only [flip_bit, List.modify_succ_cons, List.mem_cons] at hmem
      rcases hmem with rfl | hmem
      · exact hb b (by simp)
      · exact ih j (fun c hc => hb c (by simp [hc])) b hmem

theorem host_index_lt (e : Endian) (n i : Nat) (hi : i < 4 * n) : host_index e i < 4 * n := by
  cases e <;> simp only [host_index] <;> omega

theorem host_memory_of_payload_length (e : Endian) (n : Nat) (payload : List Nat)
    (hlen : payload.length = 4 * n) : (host_memory_of_payload e payload).length = 4 * n := by
  induction n generalizing payload with
  | zero =>
    have hnil : payload = [] := List.length_eq_zero.mp (by omega)
    subst hnil
    rfl
  | succ n ih =>
    match payload, hlen with
    | b0 :: b1 :: b2 :: b3 :: rest, hlen =>
      have hrest : rest.length = 4 * n := by
        simp only [List.length_cons] at hlen
        omega
      cases e <;>
        simp only [host_memory_of_payload, List.length_append, List.length_cons,
          List.length_nil, ih rest hrest] <;> omega
    | [], hlen =>
      simp only [List.length_cons, List.length_nil] at hlen
      omega
    | [_], hlen =>
      simp only [List.length_cons, List.length_nil] at hlen
      omega
    | [_, _], hlen =>
      simp only [List.length_cons, List.length_nil] at hlen
      omega
    | [_, _, _], hlen =>
      simp only [List.length_cons, List.length_nil] at hlen
      omega

/-- Flipping a bit of payload byte `i` flips the same bit of byte `host_index e i` of the
decoded array in host memory. -/
theorem host_memory_flip (e : Endian) (n : Nat) (payload : List Nat)
    (hlen : payload.length = 4 * n) (i bit : Nat) (hi : i < 4 * n) :
    host_memory_of_payload e (flip_bit payload i bit) =
      flip_bit (host_memory_of_payload e payload) (host_index e i) bit := by
  induction n generalizing payload i with
  | zero => omega
  | succ n ih =>
    match payload, hlen with
    | b0 :: b1 :: b2 :: b3 :: rest, hlen =>
      have hrest : rest.length = 4 * n := by
        simp only [List.length_cons] at hlen
        omega
      by_cases hsmall : i < 4
      · interval_cases i <;> cases e <;> rfl
      · obtain ⟨j, rfl⟩ : ∃ j, i = j + 4 := ⟨i - 4, by omega⟩
        have hflip : flip_bit (b0 :: b1 :: b2 :: b3 :: rest) (j + 4) bit =
            b0 :: b1 :: b2 :: b3 :: flip_bit rest j bit := rfl
        have hidx : host_index e (j + 4) = 4 + host_index e j := by
          cases e <;> simp only [host_index] <;> omega
        rw [hflip, hidx]
        have hstep := ih rest hrest j (by omega)
        cases e
        · simp only [host_memory_of_payload, hstep]
          exact (flip_bit_append [b3, b2, b1, b0] _ _ bit).symm
        · simp only [host_memory_of_payload, hstep]
          exact (flip_bit_append [b0, b1, b2, b3] _ _ bit).symm
    | [], hlen =>
      simp only [List.length_cons, List.length_nil] at hlen
      omega
    | [_], hlen =>
      simp only [List.length_cons, List.length_nil] at hlen
      omega
    | [_, _], hlen =>
      simp only [List.length_cons, List.length_nil] at hlen
      omega
    | [_, _, _], hlen =>
      simp only [List.length_cons, List.length_nil] at hlen
      omega

theorem shift_xor_mod (c d : Nat) :
    ((c ^^^ d) <<< 1) % 4294967296 =
      ((c <<< 1) % 4294967296) ^^^ ((d <<< 1) % 4294967296) := by
  have h32 : (4294967296 : Nat) = 2 ^ 32 := by norm_num
  rw [h32]
  apply Nat.eq_of_testBit_eq
  intro i
  simp only [Nat.testBit_xor, Nat.testBit_mod_two_pow, Nat.testBit_shiftLeft]
  by_cases h1 : i < 32 <;> by_cases h2 : 1 ≤ i <;> simp [h1, h2]

theorem checksum_step_xor (c d b : Nat) :
    checksum_step (c ^^^ d) b = checksum_step c b ^^^ ((d <<< 1) % 4294967296) := by
  simp only [checksum_step, shift_xor_mod, Nat.xor_assoc]
  rw [Nat.xor_comm ((d <<< 1) % 4294967296) b]

theorem foldl_checksum_step_xor (xs : List Nat) (c d : Nat) (hd : d < 4294967296) :
    xs.foldl checksum_step (c ^^^ d) =
      xs.foldl checksum_step c ^^^ ((d <<< xs.length) % 4294967296) := by
  induction xs generalizing c d with
  | nil =>
    simp only [List.foldl_nil, List.length_nil, Nat.shiftLeft_zero, Nat.mod_eq_of_lt hd]
  | cons x rest ih =>
    simp only [List.foldl_cons, List.length_cons, checksum_step_xor]
    rw [ih _ _ (Nat.mod_lt _ (by decide))]
    congr 1
    simp only [Nat.shiftLeft_eq, Nat.mod_mul_mod, Nat.pow_succ, Nat.pow_one]
    congr 1
    ring

/-- Effect on the checksum of flipping bit `bit` of the byte at index `m`. -/
theorem foldl_checksum_step_flip (xs : List Nat) (m bit : Nat) (hm : m < xs.length)
    (hbit : bit < 32) (c : Nat) :
    (flip_bit xs m bit).foldl checksum_step c =
      xs.foldl checksum_step c ^^^ (2 ^ (bit + (xs.length - 1 - m)) % 4294967296) := by
  induction xs generalizing m c with
  | nil => simp only [List.length_nil] at hm; omega
  | cons x rest ih =>
    cases m with
    | zero =>
      have hstep : checksum_step c (x ^^^ 2 ^ bit) = checksum_step c x ^^^ 2 ^ bit := by
        simp only [checksum_step, Nat.xor_assoc]
      have hpow : 2 ^ bit < 4294967296 := by
        have := Nat.pow_lt_pow_right (a := 2) (by decide) hbit
        omega
      simp only [flip_bit, List.modify_zero_cons, List.foldl_cons, hstep]
      rw [foldl_checksum_step_xor _ _ _ hpow]
      simp only [Nat.shiftLeft_eq, List.length_cons, Nat.pow_add]
      congr 3
    | succ j =>
      simp only [List.length_cons] at hm
      have hstep := ih j (by omega) (checksum_step c x)
      simp only [flip_bit] at hstep
      simp only [flip_bit, List.modify_succ_cons, List.foldl_cons, hstep, List.length_cons]
      congr 3
      omega

theorem two_pow_mod_eq_zero_iff (s : Nat) : 2 ^ s % 4294967296 = 0 ↔ 32 ≤ s := by
  have h32 : (4294967296 : Nat) = 2 ^ 32 := by norm_num
  rw [h32]
  constructor
  · intro h
    by_contra hlt
    have hlt2 : 2 ^ s < 2 ^ 32 := Nat.pow_lt_pow_right (by decide) (by omega)
    rw [Nat.mod_eq_of_lt hlt2] at h
    exact absurd h (Nat.pos_iff_ne_zero.mp (Nat.two_pow_pos s))
  · intro h
    exact Nat.mod_eq_zero_of_dvd (Nat.pow_dvd_pow 2 h)

/-! ## Auxiliary facts for the claims -/

theorem checksum_step_eq_spec_step (c b : Nat) (hb : b < 4294967296) :
    checksum_step c b = ((c <<< 1) ^^^ b) % 4294967296 := by
  unfold checksum_step
  apply Nat.eq_of_testBit_eq
  intro i
  have h32 : (4294967296 : Nat) = 2 ^ 32 := by norm_num
  rw [h32] at hb ⊢
  simp only [Nat.testBit_xor, Nat.testBit_mod_two_pow]
  by_cases hi : i < 32
  · simp [hi]
  · have hbi : b.testBit i = false :=
      Nat.testBit_lt_two_pow (Nat.lt_of_lt_of_le hb (Nat.pow_le_pow_right (by decide) (by omega)))
    simp [hi, hbi]

theorem read_records_length (e : Endian) (junk : Nat → Nat) (k i : Nat) (stream : List Nat) :
    (read_records e junk k i stream).length = k := by
  induction k generalizing i stream with
  | zero => simp only [read_records, List.length_nil]
  | succ k ih =>
    unfold read_records
    split
    · rename_i heq
      cases heq
    · rename_i heq
      cases heq
      simp only [List.length_cons, ih]
    · rename_i heq _
      cases heq
      simp only [List.length_cons, ih]

/-! ## The claims -/

/-- C2. On every byte sequence `calculate_checksum` returns what the specified recurrence
gives: start from 0 and, for each byte `b` in order, replace the checksum by
`((checksum << 1) XOR b)` reduced modulo `2^32`; the result is a 32-bit value. -/
theorem calculate_checksum_eq_spec (bytes : List Nat) (hb : ∀ b ∈ bytes, b < 256) :
    calculate_checksum bytes bytes.length = checksum_spec bytes ∧
      calculate_checksum bytes bytes.length < 4294967296 := by
  refine ⟨?_, calculate_checksum_lt bytes
    (fun b hmem => Nat.lt_trans (hb b hmem) (by decide)) _⟩
  rw [calculate_checksum_eq_foldl, checksum_spec]
  apply List.foldl_ext
  intro c b hmem
  exact checksum_step_eq_spec_step c b (Nat.lt_trans (hb b hmem) (by decide))

/-- C2, instance: the five bytes `00 00 00 64 FF`. -/
theorem calculate_checksum_eq_spec_witness :
    (∀ b ∈ [0, 0, 0, 100, 255], b < 256) ∧
      calculate_checksum [0, 0, 0, 100, 255] [0, 0, 0, 100, 255].length =
        checksum_spec [0, 0, 0, 100, 255] ∧
      calculate_checksum [0, 0, 0, 100, 255] [0, 0, 0, 100, 255].length < 4294967296 :=
  ⟨by decide, calculate_checksum_eq_spec [0, 0, 0, 100, 255] (by decide)⟩

/-- C3, claim as stated, refuted: in the file written from `[1, 2, ..., 9]` on a little-endian
host, flipping the top bit of the first payload byte changes the first decoded record, yet the
recomputed checksum still equals the stored one and the reader prints "✓". -/
theorem single_bit_flip_counterexample :
    read_file .little 2 (fun _ => 0)
        (flip_bit (write_file .little [0, 0] [1, 2, 3, 4, 5, 6, 7, 8, 9]) (16 + 0) 7) =
      .displayed
        { version := 1
          record_count := 9
          stored_checksum := 439041096
          calculated_checksum := 439041096
          checksum_ok := true
          records := [2147483649, 2, 3, 4, 5, 6, 7, 8, 9] } := by
  decide

/-- C3, amended. In a file validly written from `n` records, flipping bit `bit` of the payload
byte at offset `i` (header checksum untouched) makes the recomputed checksum differ from the
stored one, so that "✗" is printed, exactly when `bit + (4n - 1 - m) < 32`, where `m` is the
index of that byte in the host memory of the decoded array; a flip further from the end of the
array is shifted out of the 32-bit checksum and goes unnoticed. -/
theorem single_bit_flip_detection (e : Endian) (pad : List Nat) (junk : Nat → Nat)
    (data : List Int) (hlen : data.length < 2147483648) (i bit : Nat)
    (hi : i < 4 * data.length) (hbit : bit < 8) :
    ∃ r, read_file e pad.length junk
          (flip_bit (write_file e pad data) (sizeof_FileHeader pad.length + i) bit) =
        .displayed r ∧
      r.stored_checksum = calculate_checksum (int_array_bytes e data) (4 * data.length) ∧
      r.calculated_checksum =
        calculate_checksum (uint32_array_bytes e r.records) (4 * r.record_count) ∧
      (r.checksum_ok = false ↔ bit + (4 * data.length - 1 - host_index e i) < 32) ∧
      (r.checksum_ok = true ↔ 32 ≤ bit + (4 * data.length - 1 - host_index e i)) := by
  have hvs : ∀ v ∈ data.map to_uint32, v < 4294967296 := fun v hv => by
    obtain ⟨x, _, rfl⟩ := List.mem_map.mp hv
    exact to_uint32_lt x
  have hplen : (uint32_array_bytes .big (data.map to_uint32)).length = 4 * data.length := by
    rw [uint32_array_bytes_length, List.length_map]
  have hpb := uint32_array_bytes_lt .big (data.map to_uint32)
  -- the flip happens inside the payload
  have hheader : (MAGIC ++ mem16 .big 1 ++ pad ++ mem32 .big data.length ++
      mem32 .big (calculate_checksum (int_array_bytes e data) (4 * data.length))).length =
        sizeof_FileHeader pad.length := by
    simp only [MAGIC, List.length_append, mem16_length, mem32_length, List.length_cons,
      List.length_nil, sizeof_FileHeader]
  rw [write_file_eq e pad data hlen, ← hheader, flip_bit_append,
    read_file_of_header e pad junk _ _ (by omega) (checksum_of_data_lt e data _)]
  -- host memory of the decoded array, before and after the flip
  have hmem0 : host_memory_of_payload e (uint32_array_bytes .big (data.map to_uint32)) =
      int_array_bytes e data := by
    rw [← uint32_array_bytes_read_records e junk data.length 0 _ hplen hpb]
    have hrec := read_records_big e junk (data.map to_uint32) hvs 0 []
    simp only [List.length_map, List.append_nil] at hrec
    rw [hrec, int_array_bytes_eq]
  have hmem1 : uint32_array_bytes e (read_records e junk data.length 0
      (flip_bit (uint32_array_bytes .big (data.map to_uint32)) i bit)) =
        flip_bit (int_array_bytes e data) (host_index e i) bit := by
    rw [uint32_array_bytes_read_records e junk data.length 0 _
      (by rw [flip_bit_length, hplen]) (flip_bit_lt _ _ _ hbit hpb),
      host_memory_flip e data.length _ hplen i bit hi, hmem0]
  have hblen : (int_array_bytes e data).length = 4 * data.length := by
    rw [int_array_bytes_eq, uint32_array_bytes_length, List.length_map]
  have hcalc : calculate_checksum (flip_bit (int_array_bytes e data) (host_index e i) bit)
      (4 * data.length) =
        calculate_checksum (int_array_bytes e data) (4 * data.length) ^^^
          (2 ^ (bit + (4 * data.length - 1 - host_index e i)) % 4294967296) := by
    have h1 := calculate_checksum_eq_foldl (flip_bit (int_array_bytes e data) (host_index e i) bit)
    have h2 := calculate_checksum_eq_foldl (int_array_bytes e data)
    rw [flip_bit_length, hblen] at h1
    rw [hblen] at h2
    rw [h1, h2, foldl_checksum_step_flip _ _ _
      (by rw [hblen]; exact host_index_lt e _ i hi) (by omega), hblen]
  have hdiff : ∀ x d : Nat, x ^^^ d = x ↔ d = 0 := by
    intro x d
    constructor
    · intro h
      have h0 : x ^^^ d = x ^^^ 0 := by rw [h, Nat.xor_zero]
      exact Nat.xor_right_injective h0
    · intro h
      rw [h, Nat.xor_zero]
  refine ⟨_, rfl, rfl, rfl, ?_, ?_⟩
  · simp only [hmem1, hcalc, decide_eq_false_iff_not, hdiff, two_pow_mod_eq_zero_iff]
    omega
  · simp only [hmem1, hcalc, decide_eq_true_eq, hdiff, two_pow_mod_eq_zero_iff]

/-- C3 amended, instance: bit 3 of payload byte 7 of the demo file. -/
theorem single_bit_flip_detection_witness :
    ([100, 200, 300, 400, 500] : List Int).length < 2147483648 ∧
      7 < 4 * ([100, 200, 300, 400, 500] : List Int).length ∧ 3 < 8 ∧
      ∃ r, read_file .little [0, 0].length (fun _ => 0)
            (flip_bit (write_file .little [0, 0] [100, 200, 300, 400, 500])
              (sizeof_FileHeader [0, 0].length + 7) 3) =
          .displayed r ∧
        r.stored_checksum =
          calculate_checksum (int_array_bytes .little [100, 200, 300, 400, 500])
            (4 * ([100, 200, 300, 400, 500] : List Int).length) ∧
        r.calculated_checksum =
          calculate_checksum (uint32_array_bytes .little r.records) (4 * r.record_count) ∧
        (r.checksum_ok = false ↔
          3 + (4 * ([100, 200, 300, 400, 500] : List Int).length - 1 -
            host_index .little 7) < 32) ∧
        (r.checksum_ok = true ↔
          32 ≤ 3 + (4 * ([100, 200, 300, 400, 500] : List Int).length - 1 -
            host_index .little 7)) :=
  ⟨by decide, by decide, by decide,
    single_bit_flip_detection .little [0, 0] (fun _ => 0) [100, 200, 300, 400, 500]
      (by decide) 7 3 (by decide) (by decide)⟩

/-- C4. A file long enough for `fread` to fill a whole `FileHeader` and whose first four bytes
are not `"MYFT"` is rejected as bad magic, whatever the rest of its content: no header field is
converted and no record is decoded. -/
theorem bad_magic_rejected (e : Endian) (padLen : Nat) (junk : Nat → Nat) (file : List Nat)
    (hlen : sizeof_FileHeader padLen ≤ file.length) (hmagic : file.take 4 ≠ MAGIC) :
    read_file e padLen junk file = .bad_magic := by
  simp only [read_file, fread_header, hlen, if_true, ne_eq, hmagic, not_false_eq_true]

/-- C4, instance: a 20-byte file starting with `"XXXX"`. -/
theorem bad_magic_rejected_witness :
    sizeof_FileHeader 2 ≤
        [88, 88, 88, 88, 0, 1, 0, 0, 0, 0, 0, 1, 0, 0, 0, 200, 0, 0, 0, 100].length ∧
      [88, 88, 88, 88, 0, 1, 0, 0, 0, 0, 0, 1, 0, 0, 0, 200, 0, 0, 0, 100].take 4 ≠ MAGIC ∧
      read_file .little 2 (fun _ => 0)
        [88, 88, 88, 88, 0, 1, 0, 0, 0, 0, 0, 1, 0, 0, 0, 200, 0, 0, 0, 100] = .bad_magic :=
  ⟨by decide, by decide,
    bad_magic_rejected .little 2 (fun _ => 0)
      [88, 88, 88, 88, 0, 1, 0, 0, 0, 0, 0, 1, 0, 0, 0, 200, 0, 0, 0, 100]
      (by decide) (by decide)⟩

/-- C5, claim as stated, refuted: a written file whose last payload byte was changed from 100
to 101 has a stored checksum (800) different from the calculated one (808), and the reader
still displays its record. -/
theorem checksum_mismatch_counterexample :
    read_file .little 2 (fun _ => 0)
        [77, 89, 70, 84, 0, 1, 0, 0, 0, 0, 0, 1, 0, 0, 3, 32, 0, 0, 0, 101] =
      .displayed
        { version := 1
          record_count := 1
          stored_checksum := 800
          calculated_checksum := 808
          checksum_ok := false
          records := [101] } ∧
      write_file .little [0, 0] [100] =
        [77, 89, 70, 84, 0, 1, 0, 0, 0, 0, 0, 1, 0, 0, 3, 32, 0, 0, 0, 100] := by
  decide

theorem big_endian_bytes_ntohl_load32 (e : Endian) (b0 b1 b2 b3 : Nat) (h0 : b0 < 256)
    (h1 : b1 < 256) (h2 : b2 < 256) (h3 : b3 < 256) :
    big_endian_bytes (ntohl e (load32 e [b0, b1, b2, b3])) = [b0, b1, b2, b3] := by
  cases e with
  | big =>
    simp only [ntohl, htonl, load32]
    rw [Nat.mod_eq_of_lt (by omega)]
    exact mem32_big_of_bytes b0 b1 b2 b3 h0 h1 h2 h3
  | little =>
    simp only [ntohl, htonl, load32]
    rw [bswap32_of_bytes b3 b2 b1 b0 h3 h2 h1 h0]
    exact mem32_big_of_bytes b0 b1 b2 b3 h0 h1 h2 h3

/-- When the stream holds the `4 * n` bytes of `n` records, the read loop decodes exactly those
bytes, four at a time and most significant byte first; `network_value` is never left
indeterminate. -/
theorem read_records_decode (e : Endian) (junk : Nat → Nat) (n i : Nat) (payload : List Nat)
    (hlen : 4 * n ≤ payload.length) (hb : ∀ b ∈ payload, b < 256) :
    ((read_records e junk n i payload).map big_endian_bytes).flatten = payload.take (4 * n) := by
  induction n generalizing i payload with
  | zero => simp only [read_records, List.map_nil, List.flatten_nil, Nat.mul_zero, List.take_zero]
  | succ n ih =>
    match payload, hlen, hb with
    | b0 :: b1 :: b2 :: b3 :: rest, hlen, hb =>
      have h0 : b0 < 256 := hb b0 (by simp)
      have h1 : b1 < 256 := hb b1 (by simp)
      have h2 : b2 < 256 := hb b2 (by simp)
      have h3 : b3 < 256 := hb b3 (by simp)
      have hrest : ∀ b ∈ rest, b < 256 := fun b hm => hb b (by simp [hm])
      have hlen2 : 4 * n ≤ rest.length := by
        simp only [List.length_cons] at hlen
        omega
      have h4 : 4 * (n + 1) = 4 * n + 1 + 1 + 1 + 1 := by omega
      simp only [read_records, List.map_cons, List.flatten_cons,
        big_endian_bytes_ntohl_load32 e b0 b1 b2 b3 h0 h1 h2 h3, ih (i + 1) rest hlen2 hrest,
        h4, List.take_succ_cons, List.cons_append, List.nil_append]
    | [], hlen, _ => simp only [List.length_nil] at hlen; omega
    | [_], hlen, _ => simp only [List.length_cons, List.length_nil] at hlen; omega
    | [_, _], hlen, _ => simp only [List.length_cons, List.length_nil] at hlen; omega
    | [_, _, _], hlen, _ => simp only [List.length_cons, List.length_nil] at hlen; omega

/-- C5, amended. For a file that holds the `record_count * 4` payload bytes its header declares
(the array allocation being taken to succeed, as in `read_file`): once the header is read and
the magic matches, the reader decodes `record_count` records from exactly those payload bytes,
recomputes the checksum over them and prints the "✓" mark exactly when it equals the header's
stored checksum and "✗" otherwise; in both cases it goes on to display the decoded records. -/
theorem checksum_mismatch_reported (e : Endian) (padLen : Nat) (junk : Nat → Nat)
    (file : List Nat) (hb : ∀ b ∈ file, b < 256)
    (hlen : sizeof_FileHeader padLen ≤ file.length)
    (hmagic : file.take 4 = MAGIC)
    (hpayload : 4 * ntohl e (load32 e ((file.drop (6 + padLen)).take 4)) ≤
      (file.drop (sizeof_FileHeader padLen)).length) :
    ∃ r, read_file e padLen junk file = .displayed r ∧
      r.record_count = ntohl e (load32 e ((file.drop (6 + padLen)).take 4)) ∧
      r.stored_checksum = ntohl e (load32 e ((file.drop (10 + padLen)).take 4)) ∧
      r.records.length = r.record_count ∧
      (r.records.map big_endian_bytes).flatten =
        (file.drop (sizeof_FileHeader padLen)).take (4 * r.record_count) ∧
      r.calculated_checksum =
        calculate_checksum (uint32_array_bytes e r.records)
          (r.record_count * 4 % 18446744073709551616) ∧
      (r.checksum_ok = true ↔ r.calculated_checksum = r.stored_checksum) ∧
      (r.checksum_ok = false ↔ r.calculated_checksum ≠ r.stored_checksum) := by
  simp only [read_file, fread_header, hlen, if_true, hmagic, ne_eq, not_true_eq_false,
    if_false]
  refine ⟨_, rfl, rfl, rfl, ?_, ?_, rfl, ?_, ?_⟩
  · exact read_records_length _ _ _ _ _
  · exact read_records_decode e junk _ 0 _ hpayload
      (fun b hm => hb b (List.mem_of_mem_drop hm))
  · simp only [decide_eq_true_eq]
  · simp only [decide_eq_false_iff_not]

/-- C5 amended, instance: the tampered one-record file of the counterexample. -/
theorem checksum_mismatch_reported_witness :
    (∀ b ∈ [77, 89, 70, 84, 0, 1, 0, 0, 0, 0, 0, 1, 0, 0, 3, 32, 0, 0, 0, 101], b < 256) ∧
      sizeof_FileHeader 2 ≤
        [77, 89, 70, 84, 0, 1, 0, 0, 0, 0, 0, 1, 0, 0, 3, 32, 0, 0, 0, 101].length ∧
      [77, 89, 70, 84, 0, 1, 0, 0, 0, 0, 0, 1, 0, 0, 3, 32, 0, 0, 0, 101].take 4 = MAGIC ∧
      4 * ntohl .little (load32 .little
          (([77, 89, 70, 84, 0, 1, 0, 0, 0, 0, 0, 1, 0, 0, 3, 32, 0, 0, 0, 101].drop
            (6 + 2)).take 4)) ≤
        ([77, 89, 70, 84, 0, 1, 0, 0, 0, 0, 0, 1, 0, 0, 3, 32, 0, 0, 0, 101].drop
          (sizeof_FileHeader 2)).length ∧
      ∃ r, read_file .little 2 (fun _ => 0)
          [77, 89, 70, 84, 0, 1, 0, 0, 0, 0, 0, 1, 0, 0, 3, 32, 0, 0, 0, 101] = .displayed r ∧
        r.record_count = ntohl .little (load32 .little
          (([77, 89, 70, 84, 0, 1, 0, 0, 0, 0, 0, 1, 0, 0, 3, 32, 0, 0, 0, 101].drop
            (6 + 2)).take 4)) ∧
        r.stored_checksum = ntohl .little (load32 .little
          (([77, 89, 70, 84, 0, 1, 0, 0, 0, 0, 0, 1, 0, 0, 3, 32, 0, 0, 0, 101].drop
            (10 + 2)).take 4)) ∧
        r.records.length = r.record_count ∧
        (r.records.map big_endian_bytes).flatten =
          ([77, 89, 70, 84, 0, 1, 0, 0, 0, 0, 0, 1, 0, 0, 3, 32, 0, 0, 0, 101].drop
            (sizeof_FileHeader 2)).take (4 * r.record_count) ∧
        r.calculated_checksum =
          calculate_checksum (uint32_array_bytes .little r.records)
            (r.record_count * 4 % 18446744073709551616) ∧
        (r.checksum_ok = true ↔ r.calculated_checksum = r.stored_checksum) ∧
        (r.checksum_ok = false ↔ r.calculated_checksum ≠ r.stored_checksum) :=
  ⟨by decide, by decide, by decide, by decide,
    checksum_mismatch_reported .little 2 (fun _ => 0)
      [77, 89, 70, 84, 0, 1, 0, 0, 0, 0, 0, 1, 0, 0, 3, 32, 0, 0, 0, 101]
      (by decide) (by decide) (by decide) (by decide)⟩

/-- C6, the code at the failing input: a 16-byte file holding only a header that declares one
record. The reader does not reject it; it displays one record, decoded from the indeterminate
content of `network_value`. -/
theorem truncated_payload_not_rejected (e : Endian) (junk : Nat → Nat) :
    ∃ r, read_file e 2 junk (MAGIC ++ [0, 1, 0, 0, 0, 0, 0, 1, 0, 0, 0, 0]) = .displayed r ∧
      r.record_count = 1 ∧ r.records = [ntohl e (junk 0 % 4294967296)] := by
  cases e
  · exact ⟨_, rfl, rfl, rfl⟩
  · exact ⟨_, rfl, rfl, rfl⟩

/-- C7. A file of 13 bytes or fewer makes the header `fread` fail, so the reader stops with
"Failed to read file header" before the magic or any other field is looked at; this holds for
every byte order and every struct padding. -/
theorem short_file_rejected (e : Endian) (padLen : Nat) (junk : Nat → Nat) (file : List Nat)
    (hlen : file.length ≤ 13) :
    read_file e padLen junk file = .header_read_failed := by
  have hshort : ¬ sizeof_FileHeader padLen ≤ file.length := by
    unfold sizeof_FileHeader
    omega
  simp only [read_file, fread_header, hshort, if_false]

/-- C7, instance: a 13-byte file. -/
theorem short_file_rejected_witness :
    [88, 88, 88, 88, 0, 1, 0, 0, 0, 0, 0, 0, 0].length ≤ 13 ∧
      read_file .big 0 (fun _ => 0) [88, 88, 88, 88, 0, 1, 0, 0, 0, 0, 0, 0, 0] =
        .header_read_failed :=
  ⟨by decide,
    short_file_rejected .big 0 (fun _ => 0) [88, 88, 88, 88, 0, 1, 0, 0, 0, 0, 0, 0, 0]
      (by decide)⟩

/-- C8. In the file the writer produces, the header's checksum field decoded big-endian equals
the checksum the reader recomputes over the records it decodes from that file; the reader's
stored and calculated checksums agree and it prints the "✓" mark. -/
theorem written_header_checksum_invariant (e : Endian) (pad : List Nat) (junk : Nat → Nat)
    (data : List Int) (hlen : data.length < 2147483648) :
    ∃ r, read_file e pad.length junk (write_file e pad data) = .displayed r ∧
      load32 .big (((write_file e pad data).drop (10 + pad.length)).take 4) =
        r.calculated_checksum ∧
      r.calculated_checksum =
        calculate_checksum (uint32_array_bytes e r.records) (r.record_count * 4) ∧
      r.stored_checksum = r.calculated_checksum ∧ r.checksum_ok = true := by
  refine ⟨_, read_write_file e pad junk data hlen, ?_, ?_, rfl, rfl⟩
  · have hcs := checksum_of_data_lt e data (4 * data.length)
    have hfile : write_file e pad data =
        (MAGIC ++ mem16 e (htons e 1) ++ pad ++ mem32 e (htonl e (to_uint32 data.length))) ++
          (mem32 .big (calculate_checksum (int_array_bytes e data) (4 * data.length)) ++
            write_records e data) := by
      simp only [write_file, fwrite_header, build_header, mem32_htonl e _ hcs,
        List.append_assoc]
    rw [hfile, List.drop_left' (by
      simp only [MAGIC, List.length_append, mem16_length, mem32_length, List.length_cons,
        List.length_nil]
      omega), List.take_left' (mem32_length _ _)]
    simp only [mem32, load32]
    omega
  · simp only [int_array_bytes_eq, Nat.mul_comm]

/-- C8, instance: the demo data `[100, 200, 300, 400, 500]`. -/
theorem written_header_checksum_invariant_witness :
    ([100, 200, 300, 400, 500] : List Int).length < 2147483648 ∧
      ∃ r, read_file .little [0, 0].length (fun _ => 0)
          (write_file .little [0, 0] [100, 200, 300, 400, 500]) = .displayed r ∧
        load32 .big (((write_file .little [0, 0] [100, 200, 300, 400, 500]).drop
          (10 + [0, 0].length)).take 4) = r.calculated_checksum ∧
        r.calculated_checksum =
          calculate_checksum (uint32_array_bytes .little r.records) (r.record_count * 4) ∧
        r.stored_checksum = r.calculated_checksum ∧ r.checksum_ok = true :=
  ⟨by decide,
    written_header_checksum_invariant .little [0, 0] (fun _ => 0) [100, 200, 300, 400, 500]
      (by decide)⟩

/-- The written file for any record count below `2^32`: the count field holds the count. -/
theorem write_file_eq_of_count_lt (e : Endian) (pad : List Nat) (data : List Int)
    (hlen : data.length < 4294967296) :
    write_file e pad data =
      MAGIC ++ mem16 .big 1 ++ pad ++ mem32 .big data.length ++
        mem32 .big (calculate_checksum (int_array_bytes e data) (4 * data.length)) ++
        uint32_array_bytes .big (data.map to_uint32) := by
  have hcount : to_uint32 (data.length : Int) = data.length := by
    unfold to_uint32
    omega
  simp only [write_file, fwrite_header, build_header, hcount, write_records_eq,
    mem16_htons e 1 (by decide), mem32_htonl e _ (checksum_of_data_lt e data _),
    mem32_htonl e data.length hlen]

/-- C11, the code on the demo data: a little-endian host stores the checksum 54864868, computed
over the records as they lie in its memory, while the checksum of the big-endian flattening,
which is also what a big-endian host stores, is 6858710; the two hosts write different files
for the same records, and the file of the little-endian host, read on a big-endian host, has
its records decoded correctly but is marked "✗". -/
theorem stored_checksum_host_dependent :
    load32 .big (((write_file .little [0, 0] demo_data).drop 12).take 4) = 54864868 ∧
      load32 .big (((write_file .big [0, 0] demo_data).drop 12).take 4) = 6858710 ∧
      checksum_spec ((demo_data.map (fun x => big_endian_bytes (to_uint32 x))).flatten) =
        6858710 ∧
      write_file .little [0, 0] demo_data ≠ write_file .big [0, 0] demo_data ∧
      read_file .big 2 (fun _ => 0) (write_file .little [0, 0] demo_data) =
        .displayed
          { version := 1
            record_count := 5
            stored_checksum := 54864868
            calculated_checksum := 6858710
            checksum_ok := false
            records := [100, 200, 300, 400, 500] } := by
  decide

/-- C12. For `n` records with `n` below `2^32`, the header the writer builds and writes starts
with the four bytes `"MYFT"`, its version field decodes big-endian to 1 and its record_count
field decodes big-endian to `n`. -/
theorem written_header_fields (e : Endian) (pad : List Nat) (data : List Int)
    (hlen : data.length < 4294967296) :
    (build_header e data).magic = MAGIC ∧
      (write_file e pad data).take 4 = MAGIC ∧
      load16 .big (((write_file e pad data).drop 4).take 2) = 1 ∧
      load32 .big (((write_file e pad data).drop (6 + pad.length)).take 4) = data.length := by
  refine ⟨rfl, ?_, ?_, ?_⟩
  · rw [write_file_eq_of_count_lt e pad data hlen]
    simp only [List.append_assoc]
    exact List.take_left' rfl
  · rw [write_file_eq_of_count_lt e pad data hlen]
    simp only [List.append_assoc]
    have hmagic : MAGIC.length = 4 := rfl
    rw [List.drop_left' hmagic, List.take_left' (mem16_length _ _)]
    rfl
  · rw [write_file_eq_of_count_lt e pad data hlen]
    have hsplit : MAGIC ++ mem16 .big 1 ++ pad ++ mem32 .big data.length ++
        mem32 .big (calculate_checksum (int_array_bytes e data) (4 * data.length)) ++
        uint32_array_bytes .big (data.map to_uint32) =
          (MAGIC ++ mem16 .big 1 ++ pad) ++ (mem32 .big data.length ++
            (mem32 .big (calculate_checksum (int_array_bytes e data) (4 * data.length)) ++
              uint32_array_bytes .big (data.map to_uint32))) := by
      simp only [List.append_assoc]
    rw [hsplit, List.drop_left' (by
      simp only [MAGIC, List.length_append, mem16_length, List.length_cons, List.length_nil]),
      List.take_left' (mem32_length _ _)]
    simp only [mem32, load32]
    omega

/-- C12, instance: the demo data on a little-endian host with two padding bytes. -/
theorem written_header_fields_witness :
    demo_data.length < 4294967296 ∧
      (build_header .little demo_data).magic = MAGIC ∧
      (write_file .little [0, 0] demo_data).take 4 = MAGIC ∧
      load16 .big (((write_file .little [0, 0] demo_data).drop 4).take 2) = 1 ∧
      load32 .big (((write_file .little [0, 0] demo_data).drop (6 + [0, 0].length)).take 4) =
        demo_data.length :=
  ⟨by decide, written_header_fields .little [0, 0] demo_data (by decide)⟩

/-- C13. The checksum of the empty record sequence is 0 and the checksum of the one-record
sequence `[0]`, whose memory is four zero bytes on either host, is 0. -/
theorem checksum_of_empty_and_zero (e : Endian) :
    calculate_checksum (int_array_bytes e []) (4 * ([] : List Int).length) = 0 ∧
      int_array_bytes e [0] = [0, 0, 0, 0] ∧
      calculate_checksum (int_array_bytes e [0]) (4 * ([0] : List Int).length) = 0 := by
  cases e <;> decide

end BinaryFile

/-! # Theorems about C `int` arithmetic -/

namespace CInt

theorem wrap_int_of_range (x : Int) (h1 : -2147483648 ≤ x) (h2 : x ≤ 2147483647) :
    wrap_int x = x := by
  unfold wrap_int
  omega

theorem wrap_int_le_max (x : Int) : wrap_int x ≤ 2147483647 := by
  unfold wrap_int
  omega

end CInt

/-! # Theorems about `math_library.c` -/

namespace MathLibrary

theorem gcd_natCast (m n : Nat) : gcd (m : Int) (n : Int) = (Nat.gcd m n : Int) := by
  induction n using Nat.strong_induction_on generalizing m with
  | _ n ih =>
    rw [gcd]
    by_cases hn : n = 0
    · subst hn
      simp
    · have hne : (n : Int) ≠ 0 := by exact_mod_cast hn
      rw [if_neg hne, ← Int.ofNat_tmod, ih (m % n) (Nat.mod_lt _ (Nat.pos_of_ne_zero hn)) n]
      rw [Nat.gcd_comm n (m % n), ← Nat.gcd_rec, Nat.gcd_comm]


theorem gcd_nonneg_eq (a b : Int) (ha : 0 ≤ a) (hb : 0 ≤ b) :
    gcd a b = (Nat.gcd a.toNat b.toNat : Int) := by
  have h := gcd_natCast a.toNat b.toNat
  rwa [Int.toNat_of_nonneg ha, Int.toNat_of_nonneg hb] at h

/-- C17. For non-negative `a` and `b`, `gcd a b` (a total function: the loop always ends)
is the greatest common divisor of `a` and `b`: it divides both and every common divisor
divides it; `gcd a 0 = a` and `gcd 0 0 = 0`. -/
theorem gcd_computes_gcd (a b : Int) (ha : 0 ≤ a) (hb : 0 ≤ b) :
    gcd a b = (Nat.gcd a.toNat b.toNat : Int) ∧
      gcd a b ∣ a ∧ gcd a b ∣ b ∧ (∀ d : Int, d ∣ a → d ∣ b → d ∣ gcd a b) ∧
      gcd a 0 = a ∧ gcd 0 0 = 0 := by
  have hg := gcd_nonneg_eq a b ha hb
  have ha' : ((a.toNat : Nat) : Int) = a := Int.toNat_of_nonneg ha
  have hb' : ((b.toNat : Nat) : Int) = b := Int.toNat_of_nonneg hb
  refine ⟨hg, ?_, ?_, ?_, ?_, ?_⟩
  · rw [hg]
    conv_rhs => rw [← ha']
    exact Int.natCast_dvd_natCast.mpr (Nat.gcd_dvd_left _ _)
  · rw [hg]
    conv_rhs => rw [← hb']
    exact Int.natCast_dvd_natCast.mpr (Nat.gcd_dvd_right _ _)
  · intro d hda hdb
    rw [hg]
    have h1 : d.natAbs ∣ a.toNat := by
      have := Int.natAbs_dvd_natAbs.mpr hda
      rwa [← ha', Int.natAbs_ofNat] at this
    have h2 : d.natAbs ∣ b.toNat := by
      have := Int.natAbs_dvd_natAbs.mpr hdb
      rwa [← hb', Int.natAbs_ofNat] at this
    exact Int.natAbs_dvd.mp (Int.natCast_dvd_natCast.mpr (Nat.dvd_gcd h1 h2))
  · rw [gcd, if_pos rfl]
  · rw [gcd, if_pos rfl]

/-- C17, instance: the demo call `gcd(48, 18)`. -/
theorem gcd_computes_gcd_witness :
    (0 : Int) ≤ 48 ∧ (0 : Int) ≤ 18 ∧
      gcd 48 18 = (Nat.gcd (48 : Int).toNat (18 : Int).toNat : Int) ∧
      gcd 48 18 ∣ 48 ∧ gcd 48 18 ∣ 18 ∧ (∀ d : Int, d ∣ 48 → d ∣ 18 → d ∣ gcd 48 18) ∧
      gcd 48 0 = 48 ∧ gcd 0 0 = 0 :=
  ⟨by decide, by decide, gcd_computes_gcd 48 18 (by decide) (by decide)⟩

/-- C18, claim as stated, refuted: the least common multiple of 65536 and 65536 is 65536 and
fits in an `int`, but the product `a * b` computed first is `2^32`, which wraps to 0, and
`lcm` returns 0. -/
theorem lcm_counterexample :
    lcm 65536 65536 = 0 ∧ Nat.lcm 65536 65536 = 65536 ∧ (65536 : Int) ≤ 2147483647 := by
  have h := gcd_natCast 65536 65536
  simp only [Nat.cast_ofNat, Nat.gcd_self] at h
  refine ⟨?_, by decide, by decide⟩
  rw [lcm, h]
  decide

/-- C18, amended. For positive `a` and `b` whose product `a * b` fits in a 32-bit signed
`int`, `lcm a b` is the least common multiple of `a` and `b`. -/
theorem lcm_of_product_in_range (a b : Int) (ha : 0 < a) (hb : 0 < b)
    (hprod : a * b ≤ 2147483647) :
    lcm a b = (Nat.lcm a.toNat b.toNat : Int) := by
  have hg := gcd_nonneg_eq a b (le_of_lt ha) (le_of_lt hb)
  have ha' : ((a.toNat : Nat) : Int) = a := Int.toNat_of_nonneg (le_of_lt ha)
  have hb' : ((b.toNat : Nat) : Int) = b := Int.toNat_of_nonneg (le_of_lt hb)
  have hpos : 0 ≤ a * b := le_of_lt (mul_pos ha hb)
  rw [lcm, CInt.wrap_int_of_range _ (by omega) hprod, hg, Nat.lcm]
  rw [Int.tdiv_eq_ediv hpos (Int.ofNat_nonneg _)]
  rw [Int.natCast_div, Int.natCast_mul, ha', hb']

/-- C18 amended, instance: the demo call `lcm(48, 18)`. -/
theorem lcm_of_product_in_range_witness :
    (0 : Int) < 48 ∧ (0 : Int) < 18 ∧ (48 : Int) * 18 ≤ 2147483647 ∧
      lcm 48 18 = (Nat.lcm (48 : Int).toNat (18 : Int).toNat : Int) :=
  ⟨by decide, by decide, by decide,
    lcm_of_product_in_range 48 18 (by decide) (by decide) (by decide)⟩

theorem index_le_of_domain (n : Nat) (hn2 : 2 ≤ n) (hmax : n ≤ 2147483647)
    (hdom : n < 2147395600 ∨ ¬ n.Prime) (i : Nat)
    (hprev : (i - 1) * (i - 1) ≤ n) (hnodiv : ∀ j, 2 ≤ j → j < i → ¬ j ∣ n) :
    i ≤ 46340 := by
  by_contra hbig
  have hi : 46340 ≤ i - 1 := by omega
  have hsq : 46340 * 46340 ≤ (i - 1) * (i - 1) := Nat.mul_le_mul hi hi
  have hnp : ¬ n.Prime := by
    rcases hdom with h | h
    · omega
    · exact h
  have hm2 : 2 ≤ n.minFac := (Nat.minFac_prime (by omega)).two_le
  have hmsq : n.minFac ^ 2 ≤ n := Nat.minFac_sq_le_self (by omega) hnp
  have hmlt : n.minFac < i := by
    by_contra hge
    have h1 : 46341 ≤ n.minFac := by omega
    have h2 : 46341 * 46341 ≤ n.minFac * n.minFac := Nat.mul_le_mul h1 h1
    rw [pow_two] at hmsq
    omega
  exact hnodiv _ hm2 hmlt (Nat.minFac_dvd n)

theorem isPrime_loop_spec (n : Nat) (hn2 : 2 ≤ n) (hmax : n ≤ 2147483647)
    (hdom : n < 2147395600 ∨ ¬ n.Prime) (fuel i : Nat) (hi : 2 ≤ i)
    (hprev : (i - 1) * (i - 1) ≤ n) (hnodiv : ∀ j, 2 ≤ j → j < i → ¬ j ∣ n)
    (hfuel : 46341 ≤ fuel + i) :
    ∃ r, isPrime_loop (n : Int) fuel (i : Int) = some r ∧
      (r = 1 ↔ n.Prime) ∧ (r = 0 ↔ ¬ n.Prime) := by
  have hile := index_le_of_domain n hn2 hmax hdom i hprev hnodiv
  induction fuel generalizing i with
  | zero => omega
  | succ fuel ih =>
    have hsq : i * i ≤ 46340 * 46340 := Nat.mul_le_mul hile hile
    have hwrap : CInt.wrap_int ((i : Int) * (i : Int)) = ((i * i : Nat) : Int) := by
      rw [CInt.wrap_int_of_range] <;> push_cast <;> nlinarith
    have hnext : CInt.wrap_int ((i : Int) + 1) = ((i + 1 : Nat) : Int) := by
      rw [CInt.wrap_int_of_range] <;> push_cast <;> omega
    rw [isPrime_loop, hwrap, ← Int.ofNat_tmod, hnext]
    by_cases hcond : i * i ≤ n
    · rw [if_pos (by exact_mod_cast hcond)]
      by_cases hdiv : n % i = 0
      · rw [if_pos (by exact_mod_cast hdiv)]
        have hlt : i < n := by nlinarith
        have hnp : ¬ n.Prime :=
          Nat.not_prime_of_dvd_of_lt (Nat.dvd_of_mod_eq_zero hdiv) hi hlt
        exact ⟨0, rfl, by simp [hnp], by simp [hnp]⟩
      · rw [if_neg (by exact_mod_cast hdiv)]
        have hnodiv' : ∀ j, 2 ≤ j → j < i + 1 → ¬ j ∣ n := by
          intro j hj2 hjlt hjd
          by_cases hji : j = i
          · subst hji
            exact hdiv (Nat.mod_eq_zero_of_dvd hjd)
          · exact hnodiv j hj2 (by omega) hjd
        have hprev' : (i + 1 - 1) * (i + 1 - 1) ≤ n := by simpa using hcond
        exact ih (i + 1) (by omega) hprev' hnodiv' (by omega)
          (index_le_of_domain n hn2 hmax hdom (i + 1) hprev' hnodiv')
    · rw [if_neg (by exact_mod_cast hcond)]
      have hp : n.Prime := by
        rw [Nat.prime_def_le_sqrt]
        refine ⟨hn2, fun m hm2 hmle hmd => ?_⟩
        have hmm : m * m ≤ n := Nat.le_sqrt.mp hmle
        have hmi : m < i := by
          by_contra hge
          have : i * i ≤ m * m := Nat.mul_le_mul (by omega) (by omega)
          omega
        exact hnodiv m hm2 hmi hmd
      exact ⟨1, rfl, by simp [hp], by simp [hp]⟩

/-- C19, amended. For every 32-bit `int` that is below `46340^2 = 2147395600` or is not a
prime, `isPrime` terminates and returns 1 if the number is prime and 0 otherwise. -/
theorem isPrime_below_overflow (number : Int) (hmax : number ≤ 2147483647)
    (hdom : number < 2147395600 ∨ ¬ Nat.Prime number.toNat) :
    ∃ r, isPrime number = some r ∧
      (r = 1 ↔ Nat.Prime number.toNat) ∧ (r = 0 ↔ ¬ Nat.Prime number.toNat) := by
  by_cases hlt : number < 2
  · have hnp : ¬ Nat.Prime number.toNat := by
      intro hp
      have := hp.two_le
      omega
    exact ⟨0, by rw [isPrime, if_pos hlt], by simp [hnp], by simp [hnp]⟩
  · have hn : ((number.toNat : Nat) : Int) = number := Int.toNat_of_nonneg (by omega)
    have hspec := isPrime_loop_spec number.toNat (by omega) (by omega)
      (by rcases hdom with h | h
          · left; omega
          · right; exact h)
      4294967296 2 (le_refl _) (by omega) (fun j h2 hj => by omega) (by omega)
    rw [hn] at hspec
    rw [isPrime, if_neg hlt]
    exact hspec

/-- C19 amended, instance: the number 13 of the demo loop. -/
theorem isPrime_below_overflow_witness :
    (13 : Int) ≤ 2147483647 ∧
      ((13 : Int) < 2147395600 ∨ ¬ Nat.Prime (13 : Int).toNat) ∧
      ∃ r, isPrime 13 = some r ∧
        (r = 1 ↔ Nat.Prime (13 : Int).toNat) ∧ (r = 0 ↔ ¬ Nat.Prime (13 : Int).toNat) :=
  ⟨by decide, Or.inl (by decide),
    isPrime_below_overflow 13 (by decide) (Or.inl (by decide))⟩

theorem int_max_prime : Nat.Prime 2147483647 := by
  have h : (mersenne 31).Prime := lucas_lehmer_sufficiency _ (by norm_num) (by norm_num)
  have e : mersenne 31 = 2147483647 := by norm_num [mersenne]
  rwa [e] at h

theorem isPrime_loop_int_max (k fuel i : Nat) (hi : 2 ≤ i) (hk : i + k = 2147483647)
    (hfuel : k < fuel) : isPrime_loop 2147483647 fuel (i : Int) = some 0 := by
  induction k generalizing fuel i with
  | zero =>
    obtain ⟨f, rfl⟩ : ∃ f, fuel = f + 1 := ⟨fuel - 1, by omega⟩
    have hieq : i = 2147483647 := by omega
    subst hieq
    rw [isPrime_loop, if_pos (CInt.wrap_int_le_max _)]
    simp
  | succ k ih =>
    obtain ⟨f, rfl⟩ : ∃ f, fuel = f + 1 := ⟨fuel - 1, by omega⟩
    have hnd : ¬ i ∣ 2147483647 :=
      (Nat.prime_def_lt'.mp int_max_prime).2 i hi (by omega)
    have hmod : (2147483647 : Int).tmod (i : Int) ≠ 0 := by
      have h1 : ((2147483647 : Nat) : Int).tmod (i : Int) = ((2147483647 % i : Nat) : Int) :=
        (Int.ofNat_tmod _ _).symm
      have h2 : 2147483647 % i ≠ 0 := fun h => hnd (Nat.dvd_of_mod_eq_zero h)
      intro h0
      rw [Nat.cast_ofNat] at h1
      rw [h1] at h0
      exact h2 (by exact_mod_cast h0)
    have hnext : CInt.wrap_int ((i : Int) + 1) = ((i + 1 : Nat) : Int) := by
      rw [CInt.wrap_int_of_range] <;> push_cast <;> omega
    rw [isPrime_loop, if_pos (CInt.wrap_int_le_max _), if_neg hmod, hnext]
    exact ih f (i + 1) (by omega) (by omega) (by omega)

/-- C19, claim as stated, refuted: `2147483647` is prime, but from `i = 46341` on `i * i`
overflows `int`; the wrapped square never exceeds `INT_MAX`, the loop runs until `i` reaches
the number itself, and `isPrime` returns 0. -/
theorem isPrime_counterexample :
    isPrime 2147483647 = some 0 ∧ Nat.Prime 2147483647 := by
  refine ⟨?_, int_max_prime⟩
  rw [isPrime, if_neg (by decide)]
  exact isPrime_loop_int_max 2147483645 4294967296 2 (le_refl _) (by norm_num) (by norm_num)

end MathLibrary

/-! # Theorems about `array_algorithms.c` -/

namespace ArrayAlgorithms

theorem getD_append_cons (pre : List Int) (x : Int) (rest : List Int) :
    (pre ++ x :: rest).getD pre.length 0 = x := by
  rw [List.getD_append_right _ _ _ _ (Nat.le_refl _)]
  simp

theorem set_append_cons (pre : List Int) (x y : Int) (rest : List Int) :
    (pre ++ x :: rest).set pre.length y = pre ++ y :: rest := by
  rw [List.set_append_right _ _ (Nat.le_refl _)]
  simp

theorem bubble_swap_append (pre : List Int) (x y : Int) (post : List Int) :
    bubble_swap (pre ++ x :: y :: post) pre.length =
      pre ++ (if x > y then y :: x :: post else x :: y :: post) := by
  have hx : (pre ++ x :: y :: post).getD pre.length 0 = x := getD_append_cons pre x _
  have hy : (pre ++ x :: y :: post).getD (pre.length + 1) 0 = y := by
    have h := getD_append_cons (pre ++ [x]) y post
    simp only [List.append_assoc, List.singleton_append, List.length_append,
      List.length_singleton] at h
    exact h
  unfold bubble_swap
  rw [hx, hy]
  by_cases hgt : x > y
  · rw [if_pos hgt, if_pos hgt]
    simp only []
    rw [set_append_cons]
    have h := set_append_cons (pre ++ [y]) y x post
    simp only [List.append_assoc, List.singleton_append, List.length_append,
      List.length_singleton] at h
    exact h
  · rw [if_neg hgt, if_neg hgt]


/-- One inner pass of `bubbleSort` carries the largest of the visited elements to the end of the
visited range and leaves the rest of the array alone. -/
theorem bubble_inner_spec (k : Nat) (pre : List Int) (x : Int) (rest : List Int)
    (hk : k ≤ rest.length) :
    ∃ init m, bubble_inner k pre.length (pre ++ x :: rest) = pre ++ init ++ m :: rest.drop k ∧
      init.length = k ∧ (∀ z ∈ init, z ≤ m) ∧ List.Perm (init ++ [m]) (x :: rest.take k) := by
  induction k generalizing pre x rest with
  | zero =>
    exact ⟨[], x, by simp [bubble_inner], rfl, by simp, by simp⟩
  | succ k ih =>
    match rest, hk with
    | y :: rest', hk =>
      have hk' : k ≤ rest'.length := by
        simp only [List.length_cons] at hk
        omega
      rw [bubble_inner, bubble_swap_append]
      by_cases hgt : x > y
      · rw [if_pos hgt]
        have hpre : pre ++ y :: x :: rest' = (pre ++ [y]) ++ x :: rest' := by simp
        have hlen : pre.length + 1 = (pre ++ [y]).length := by simp
        rw [hpre, hlen]
        obtain ⟨init, m, heq, hil, hle, hperm⟩ := ih (pre ++ [y]) x rest' hk'
        refine ⟨y :: init, m, ?_, by simp [hil], ?_, ?_⟩
        · rw [heq]
          simp
        · intro z hz
          rcases List.mem_cons.mp hz with rfl | hz
          · have hxm : x ∈ init ++ [m] := hperm.symm.subset (List.mem_cons_self _ _)
            rcases List.mem_append.mp hxm with h | h
            · exact le_trans (le_of_lt hgt) (hle x h)
            · rw [List.mem_singleton] at h
              rw [← h]
              exact le_of_lt hgt
          · exact hle z hz
        · simp only [List.cons_append, List.take_succ_cons]
          exact (List.Perm.cons y hperm).trans (List.Perm.swap x y _)
      · rw [if_neg hgt]
        have hpre : pre ++ x :: y :: rest' = (pre ++ [x]) ++ y :: rest' := by simp
        have hlen : pre.length + 1 = (pre ++ [x]).length := by simp
        rw [hpre, hlen]
        obtain ⟨init, m, heq, hil, hle, hperm⟩ := ih (pre ++ [x]) y rest' hk'
        refine ⟨x :: init, m, ?_, by simp [hil], ?_, ?_⟩
        · rw [heq]
          simp
        · intro z hz
          rcases List.mem_cons.mp hz with rfl | hz
          · have hym : y ∈ init ++ [m] := hperm.symm.subset (List.mem_cons_self _ _)
            rcases List.mem_append.mp hym with h | h
            · exact le_trans (not_lt.mp hgt) (hle y h)
            · rw [List.mem_singleton] at h
              rw [← h]
              exact not_lt.mp hgt
          · exact hle z hz
        · simp only [List.cons_append, List.take_succ_cons]
          exact List.Perm.cons x hperm


/-- The outer loop of `bubbleSort`: with `back` already in its final sorted place and `k + 1`
elements in front of it, `k` more passes sort the whole array. -/
theorem bubble_outer_spec (size : Int) (k : Nat) (front back : List Int)
    (hfront : front.length = k + 1) (hsize : size = ((front.length + back.length : Nat) : Int))
    (hsorted : List.Sorted (· ≤ ·) back) (hdom : ∀ f ∈ front, ∀ b ∈ back, f ≤ b) :
    List.Sorted (· ≤ ·) (bubble_outer size k back.length (front ++ back)) ∧
      List.Perm (bubble_outer size k back.length (front ++ back)) (front ++ back) := by
  induction k generalizing front back with
  | zero =>
    match front, hfront with
    | [f], _ =>
      refine ⟨?_, List.Perm.refl _⟩
      simp only [bubble_outer, List.singleton_append, List.sorted_cons]
      exact ⟨fun b hb => hdom f (List.mem_singleton_self f) b hb, hsorted⟩
  | succ k ih =>
    match front, hfront with
    | x :: rest, hfront =>
      have hrest : rest.length = k + 1 := by
        simp only [List.length_cons] at hfront
        omega
      have hcount : (size - (back.length : Int) - 1).toNat = k + 1 := by
        rw [hsize]
        simp only [List.length_cons, hrest]
        push_cast
        omega
      obtain ⟨init, m, heq, hil, hle, hperm⟩ :=
        bubble_inner_spec (k + 1) [] x (rest ++ back) (by simp [hrest])
      have hdrop : (rest ++ back).drop (k + 1) = back := List.drop_left' hrest
      have htake : (rest ++ back).take (k + 1) = rest := List.take_left' hrest
      rw [hdrop] at heq
      rw [htake] at hperm
      simp only [List.nil_append, List.length_nil] at heq
      rw [bubble_outer, hcount, List.cons_append, heq]
      have hmem : ∀ z, z ∈ init ++ [m] → z ∈ x :: rest := fun z hz => hperm.subset hz
      have hstate : init ++ m :: back = init ++ (m :: back) := rfl
      have hlen : back.length + 1 = (m :: back).length := rfl
      rw [hlen]
      have hsorted' : List.Sorted (· ≤ ·) (m :: back) := by
        rw [List.sorted_cons]
        exact ⟨fun b hb => hdom m (hmem m (by simp)) b hb, hsorted⟩
      have hdom' : ∀ f ∈ init, ∀ b ∈ m :: back, f ≤ b := by
        intro f hf b hb
        rcases List.mem_cons.mp hb with rfl | hb
        · exact hle f hf
        · exact hdom f (hmem f (by simp [hf])) b hb
      have hsize' : size = ((init.length + (m :: back).length : Nat) : Int) := by
        rw [hsize, hil]
        simp only [List.length_cons, hrest]
        push_cast
        omega
      obtain ⟨hs, hp⟩ := ih init (m :: back) hil hsize' hsorted' hdom'
      refine ⟨hs, hp.trans ?_⟩
      have h1 : List.Perm (init ++ m :: back) ((init ++ [m]) ++ back) := by simp
      exact h1.trans (List.Perm.append_right back hperm)

/-- C15. For every `int` array, with `size` its length (0 included), `bubbleSort` leaves the
array sorted in ascending order and holding a permutation of its original elements. -/
theorem bubbleSort_sorts (arr : List Int) (size : Int) (hsize : size = (arr.length : Int)) :
    List.Sorted (· ≤ ·) (bubbleSort arr size) ∧ List.Perm (bubbleSort arr size) arr ∧
      (bubbleSort arr size).length = arr.length := by
  have key : List.Sorted (· ≤ ·) (bubbleSort arr size) ∧
      List.Perm (bubbleSort arr size) arr := by
    match arr, hsize with
    | [], hsize =>
      subst hsize
      exact ⟨by simp [bubbleSort, bubble_outer], by simp [bubbleSort, bubble_outer]⟩
    | x :: rest, hsize =>
      have hk : (size - 1).toNat = rest.length := by
        rw [hsize]
        simp only [List.length_cons]
        push_cast
        omega
      have h := bubble_outer_spec size rest.length (x :: rest) [] (by simp)
        (by rw [hsize]; simp) (List.sorted_nil) (fun f _ b hb => absurd hb (List.not_mem_nil b))
      simp only [List.length_nil, List.append_nil] at h
      rw [bubbleSort, hk]
      exact h
  exact ⟨key.1, key.2, key.2.length_eq⟩

/-- C15, instance: the demo array of `main`. -/
theorem bubbleSort_sorts_witness :
    (12 : Int) = (originalArray.length : Int) ∧
      List.Sorted (· ≤ ·) (bubbleSort originalArray 12) ∧
      List.Perm (bubbleSort originalArray 12) originalArray ∧
      (bubbleSort originalArray 12).length = originalArray.length :=
  ⟨by decide, bubbleSort_sorts originalArray 12 (by decide)⟩

/-- The inner `while` loop of `insertionSort`, started at `j = p - 1` over the sorted prefix `A`
with the slot after it free: the elements greater than `key` move one place up and `key` lands
in front of them. -/
theorem insertion_shift_spec (key : Int) (p : Nat) (A : List Int) (h : Int) (rest : List Int)
    (hA : A.length = p) (hsorted : List.Sorted (· ≤ ·) A) :
    ∃ A1 A2, A = A1 ++ A2 ∧ (∀ z ∈ A1, z ≤ key) ∧ (∀ z ∈ A2, key < z) ∧
      insertion_shift key p (A ++ h :: rest) = A1 ++ key :: (A2 ++ rest) := by
  induction p generalizing A h rest with
  | zero =>
    have hnil : A = [] := List.length_eq_zero.mp hA
    subst hnil
    exact ⟨[], [], rfl, by simp, by simp, by simp [insertion_shift]⟩
  | succ p ih =>
    rcases List.eq_nil_or_concat A with hnil | ⟨A', a, hcat⟩
    · rw [hnil, List.length_nil] at hA
      omega
    · rw [List.concat_eq_append] at hcat
      subst hcat
      have hA' : A'.length = p := by
        simp only [List.length_append, List.length_singleton] at hA
        omega
      have hparts := List.pairwise_append.mp hsorted
      have harr : (A' ++ [a]) ++ h :: rest = A' ++ a :: h :: rest := by simp
      have hget : ((A' ++ [a]) ++ h :: rest).getD p 0 = a := by
        rw [harr, ← hA']
        exact getD_append_cons A' a _
      have hset : ∀ v : Int,
          ((A' ++ [a]) ++ h :: rest).set (p + 1) v = (A' ++ [a]) ++ v :: rest := by
        intro v
        have hl : p + 1 = (A' ++ [a]).length := by simp [hA']
        rw [hl]
        exact set_append_cons (A' ++ [a]) h v rest
      rw [insertion_shift, hget, hset, hset]
      by_cases hgt : a > key
      · rw [if_pos hgt]
        have hshape : (A' ++ [a]) ++ a :: rest = A' ++ a :: (a :: rest) := by simp
        rw [hshape]
        obtain ⟨A1, A2, hsplit, h1, h2, heq⟩ := ih A' a (a :: rest) hA' hparts.1
        refine ⟨A1, A2 ++ [a], ?_, h1, ?_, ?_⟩
        · rw [hsplit]
          simp
        · intro z hz
          rcases List.mem_append.mp hz with hz | hz
          · exact h2 z hz
          · rw [List.mem_singleton] at hz
            rw [hz]
            exact hgt
        · rw [heq]
          simp
      · rw [if_neg hgt]
        refine ⟨A' ++ [a], [], by simp, ?_, by simp, by simp⟩
        intro z hz
        rcases List.mem_append.mp hz with hz | hz
        · exact le_trans (hparts.2.2 z hz a (List.mem_singleton_self a)) (not_lt.mp hgt)
        · rw [List.mem_singleton] at hz
          rw [hz]
          exact not_lt.mp hgt

/-- The outer loop of `insertionSort`: with the sorted prefix `S` and `k` elements still to
insert, the loop ends with the whole array sorted. -/
theorem insertion_outer_spec (k : Nat) (S R : List Int) (hR : R.length = k)
    (hS : List.Sorted (· ≤ ·) S) :
    List.Sorted (· ≤ ·) (insertion_outer k S.length (S ++ R)) ∧
      List.Perm (insertion_outer k S.length (S ++ R)) (S ++ R) := by
  induction k generalizing S R with
  | zero =>
    have hnil : R = [] := List.length_eq_zero.mp hR
    subst hnil
    simp only [insertion_outer, List.append_nil]
    exact ⟨hS, List.Perm.refl _⟩
  | succ k ih =>
    match R, hR with
    | key :: R', hR =>
      have hR' : R'.length = k := by
        simp only [List.length_cons] at hR
        omega
      obtain ⟨A1, A2, hsplit, h1, h2, heq⟩ :=
        insertion_shift_spec key S.length S key R' rfl hS
      have hparts := List.pairwise_append.mp (hsplit ▸ hS)
      have hS' : List.Sorted (· ≤ ·) (A1 ++ key :: A2) := by
        refine List.pairwise_append.mpr ⟨hparts.1, ?_, ?_⟩
        · exact List.pairwise_cons.mpr ⟨fun b hb => le_of_lt (h2 b hb), hparts.2.1⟩
        · intro a ha b hb
          rcases List.mem_cons.mp hb with rfl | hb
          · exact h1 a ha
          · exact hparts.2.2 a ha b hb
      have hlen : S.length + 1 = (A1 ++ key :: A2).length := by
        rw [hsplit]
        simp only [List.length_append, List.length_cons]
        omega
      have hshape : A1 ++ key :: (A2 ++ R') = (A1 ++ key :: A2) ++ R' := by simp
      rw [insertion_outer, getD_append_cons, heq, hshape, hlen]
      obtain ⟨hs, hp⟩ := ih (A1 ++ key :: A2) R' hR' hS'
      refine ⟨hs, hp.trans ?_⟩
      rw [hsplit]
      simp only [List.append_assoc, List.cons_append]
      exact List.Perm.append_left A1 (List.perm_middle.symm)

/-- C16. For every `int` array, with `size` its length (0 included), `insertionSort` leaves
the array sorted in ascending order and holding a permutation of its original elements. -/
theorem insertionSort_sorts (arr : List Int) (size : Int) (hsize : size = (arr.length : Int)) :
    List.Sorted (· ≤ ·) (insertionSort arr size) ∧ List.Perm (insertionSort arr size) arr ∧
      (insertionSort arr size).length = arr.length := by
  have key : List.Sorted (· ≤ ·) (insertionSort arr size) ∧
      List.Perm (insertionSort arr size) arr := by
    match arr, hsize with
    | [], hsize =>
      subst hsize
      exact ⟨by simp [insertionSort, insertion_outer], by simp [insertionSort, insertion_outer]⟩
    | x :: rest, hsize =>
      have hk : (size - 1).toNat = rest.length := by
        rw [hsize]
        simp only [List.length_cons]
        push_cast
        omega
      have h := insertion_outer_spec rest.length [x] rest rfl (List.sorted_singleton x)
      rw [insertionSort, hk]
      exact h
  exact ⟨key.1, key.2, key.2.length_eq⟩

/-- C16, instance: the demo array of `main`. -/
theorem insertionSort_sorts_witness :
    (12 : Int) = (originalArray.length : Int) ∧
      List.Sorted (· ≤ ·) (insertionSort originalArray 12) ∧
      List.Perm (insertionSort originalArray 12) originalArray ∧
      (insertionSort originalArray 12).length = originalArray.length :=
  ⟨by decide, insertionSort_sorts originalArray 12 (by decide)⟩

theorem sorted_getD_le (arr : List Int) (hsorted : List.Sorted (· ≤ ·) arr) (i j : Nat)
    (hij : i ≤ j) (hj : j < arr.length) : arr.getD i 0 ≤ arr.getD j 0 := by
  rw [List.getD_eq_getElem _ _ hj, List.getD_eq_getElem _ _ (by omega : i < arr.length)]
  rcases Nat.lt_or_eq_of_le hij with hlt | heq
  · exact (List.pairwise_iff_getElem.mp hsorted) i j (by omega) hj hlt
  · subst heq
    exact le_refl _

theorem mem_iff_getD (arr : List Int) (target : Int) :
    target ∈ arr ↔ ∃ k : Nat, k < arr.length ∧ arr.getD k 0 = target := by
  rw [List.mem_iff_getElem]
  constructor
  · rintro ⟨k, hk, h⟩
    exact ⟨k, hk, by rw [List.getD_eq_getElem _ _ hk]; exact h⟩
  · rintro ⟨k, hk, h⟩
    exact ⟨k, hk, by rw [List.getD_eq_getElem _ _ hk] at h; exact h⟩

theorem binarySearch_loop_spec (arr : List Int) (target : Int)
    (hsorted : List.Sorted (· ≤ ·) arr) (n : Nat) (left right : Int)
    (hn : (right - left + 1).toNat ≤ n) (hleft : 0 ≤ left) (hright : right < arr.length)
    (hocc : ∀ k : Nat, k < arr.length → arr.getD k 0 = target →
      left ≤ (k : Int) ∧ (k : Int) ≤ right) :
    (binarySearch_loop arr target left right = -1 ∧ target ∉ arr) ∨
      (left ≤ binarySearch_loop arr target left right ∧
        binarySearch_loop arr target left right ≤ right ∧
        arr.getD (binarySearch_loop arr target left right).toNat 0 = target) := by
  induction n generalizing left right with
  | zero =>
    have hgt : ¬ left ≤ right := by omega
    rw [binarySearch_loop, if_neg hgt]
    left
    refine ⟨rfl, fun hmem => ?_⟩
    obtain ⟨k, hk, hv⟩ := (mem_iff_getD arr target).mp hmem
    have := hocc k hk hv
    omega
  | succ n ih =>
    by_cases hle : left ≤ right
    · have hdiv := Int.tdiv_eq_ediv (Int.sub_nonneg_of_le hle) (by decide : (0 : Int) ≤ 2)
      have hmid1 : left ≤ left + (right - left).tdiv 2 := by rw [hdiv]; omega
      have hmid2 : left + (right - left).tdiv 2 ≤ right := by rw [hdiv]; omega
      rw [binarySearch_loop, if_pos hle]
      simp only []
      generalize left + (right - left).tdiv 2 = mid at hmid1 hmid2 ⊢
      have hmidn : ((mid.toNat : Nat) : Int) = mid := Int.toNat_of_nonneg (by omega)
      have hmidlt : mid.toNat < arr.length := by omega
      by_cases heq : arr.getD mid.toNat 0 = target
      · rw [if_pos heq]
        right
        exact ⟨hmid1, hmid2, heq⟩
      · rw [if_neg heq]
        by_cases hlt : arr.getD mid.toNat 0 < target
        · rw [if_pos hlt]
          have hocc' : ∀ k : Nat, k < arr.length → arr.getD k 0 = target →
              mid + 1 ≤ (k : Int) ∧ (k : Int) ≤ right := by
            intro k hk hv
            refine ⟨?_, (hocc k hk hv).2⟩
            by_contra hcon
            have hkm : k ≤ mid.toNat := by omega
            have := sorted_getD_le arr hsorted k mid.toNat hkm hmidlt
            rw [hv] at this
            omega
          rcases ih (mid + 1) right (by omega) (by omega) hright hocc' with h | h
          · exact Or.inl h
          · exact Or.inr ⟨by omega, h.2.1, h.2.2⟩
        · rw [if_neg hlt]
          have hocc' : ∀ k : Nat, k < arr.length → arr.getD k 0 = target →
              left ≤ (k : Int) ∧ (k : Int) ≤ mid - 1 := by
            intro k hk hv
            refine ⟨(hocc k hk hv).1, ?_⟩
            by_contra hcon
            have hkm : mid.toNat ≤ k := by omega
            have := sorted_getD_le arr hsorted mid.toNat k hkm hk
            rw [hv] at this
            have hne : arr.getD mid.toNat 0 ≠ target := heq
            omega
          rcases ih left (mid - 1) (by omega) hleft (by omega) hocc' with h | h
          · exact Or.inl h
          · exact Or.inr ⟨h.1, by omega, h.2.2⟩
    · rw [binarySearch_loop, if_neg hle]
      left
      refine ⟨rfl, fun hmem => ?_⟩
      obtain ⟨k, hk, hv⟩ := (mem_iff_getD arr target).mp hmem
      have := hocc k hk hv
      omega

/-- C14. For every array sorted in ascending order (duplicates allowed, empty array included)
and every target, `binarySearch` returns -1 exactly when the target does not occur in the
array, and otherwise an index `i` with `0 <= i < size` and `arr[i] == target`. -/
theorem binarySearch_correct (arr : List Int) (size target : Int)
    (hsize : size = (arr.length : Int)) (hsorted : List.Sorted (· ≤ ·) arr) :
    (binarySearch arr size target = -1 ↔ target ∉ arr) ∧
      (target ∈ arr →
        0 ≤ binarySearch arr size target ∧ binarySearch arr size target < size ∧
          arr.getD (binarySearch arr size target).toNat 0 = target) := by
  have hspec := binarySearch_loop_spec arr target hsorted (size - 1 - 0 + 1).toNat 0 (size - 1)
    (le_refl _) (le_refl _) (by omega)
    (fun k hk _ => ⟨by omega, by omega⟩)
  unfold binarySearch
  generalize binarySearch_loop arr target 0 (size - 1) = r at hspec ⊢
  constructor
  · constructor
    · intro hr
      rcases hspec with h | h
      · exact h.2
      · omega
    · intro hnot
      rcases hspec with h | h
      · exact h.1
      · exfalso
        apply hnot
        have hr : r.toNat < arr.length := by omega
        rw [← h.2.2, List.getD_eq_getElem _ _ hr]
        exact List.getElem_mem _
  · intro hmem
    rcases hspec with h | h
    · exact absurd hmem h.2
    · exact ⟨h.1, by omega, h.2.2⟩

/-- C14, instance: the sorted demo array of `main` and the target 23. -/
theorem binarySearch_correct_witness :
    (10 : Int) = (sortedArray.length : Int) ∧ List.Sorted (· ≤ ·) sortedArray ∧
      (binarySearch sortedArray 10 23 = -1 ↔ (23 : Int) ∉ sortedArray) ∧
      ((23 : Int) ∈ sortedArray →
        0 ≤ binarySearch sortedArray 10 23 ∧ binarySearch sortedArray 10 23 < 10 ∧
          sortedArray.getD (binarySearch sortedArray 10 23).toNat 0 = 23) :=
  ⟨by decide, by decide, binarySearch_correct sortedArray 10 23 (by decide) (by decide)⟩

end ArrayAlgorithms

/-! # Theorems about `string_processing.c` -/

namespace StringProcessing

theorem strlen_int_eq (s : List Nat) (h : s.length ≤ 2147483647) :
    strlen_int s = (s.length : Int) := by
  unfold strlen_int
  exact CInt.wrap_int_of_range _ (by omega) (by omega)

/-- The inner loop stops at the first mismatch: it runs through all `k` remaining positions
exactly when they all agree. -/
theorem match_loop_spec (text pattern : List Nat) (i k j : Nat) :
    match_loop text pattern i k j ≤ j + k ∧
      (match_loop text pattern i k j = j + k ↔
        ∀ t, t < k → text.getD (i + (j + t)) 0 = pattern.getD (j + t) 0) := by
  induction k generalizing j with
  | zero => simp [match_loop]
  | succ k ih =>
    rw [match_loop]
    by_cases hne : text.getD (i + j) 0 ≠ pattern.getD j 0
    · rw [if_pos hne]
      refine ⟨by omega, ⟨fun h => by omega, fun h => ?_⟩⟩
      exact absurd (h 0 (by omega)) hne
    · rw [if_neg hne]
      have heq : text.getD (i + j) 0 = pattern.getD j 0 := not_not.mp hne
      obtain ⟨hle, hiff⟩ := ih (j + 1)
      refine ⟨by omega, ?_⟩
      rw [show j + (k + 1) = j + 1 + k by omega, hiff]
      constructor
      · intro h t ht
        rcases Nat.eq_zero_or_pos t with rfl | hpos
        · exact heq
        · have := h (t - 1) (by omega)
          rwa [show j + 1 + (t - 1) = j + t by omega] at this
      · intro h t ht
        have := h (t + 1) (by omega)
        rwa [show j + (t + 1) = j + 1 + t by omega] at this

theorem getD_take_drop (text : List Nat) (i m t : Nat) (ht : t < m) :
    ((text.drop i).take m).getD t 0 = text.getD (i + t) 0 := by
  simp [List.getD_eq_getElem?_getD, List.getElem?_take, ht, List.getElem?_drop]

/-- Agreement of all characters is an occurrence of the pattern. -/
theorem occurs_at_iff (text pattern : List Nat) (i : Nat)
    (hfit : i + pattern.length ≤ text.length) :
    occurs_at text pattern i ↔
      ∀ t, t < pattern.length → text.getD (i + (0 + t)) 0 = pattern.getD (0 + t) 0 := by
  unfold occurs_at
  constructor
  · intro h t ht
    simp only [Nat.zero_add]
    rw [← getD_take_drop text i pattern.length t ht, h]
  · intro h
    have hlen : ((text.drop i).take pattern.length).length = pattern.length := by
      simp only [List.length_take, List.length_drop]
      omega
    apply List.ext_getElem hlen
    intro t h1 h2
    have := h t h2
    simp only [Nat.zero_add] at this
    rw [← getD_take_drop text i pattern.length t h2, List.getD_eq_getElem _ _ h1,
      List.getD_eq_getElem _ _ h2] at this
    exact this

theorem occurs_at_fits (text pattern : List Nat) (i : Nat) (h : occurs_at text pattern i) :
    pattern = [] ∨ i + pattern.length ≤ text.length := by
  unfold occurs_at at h
  by_cases hp : pattern = []
  · exact Or.inl hp
  · right
    have hlen : ((text.drop i).take pattern.length).length = pattern.length := by rw [h]
    simp only [List.length_take, List.length_drop] at hlen
    have hpos : 0 < pattern.length := List.length_pos.mpr hp
    omega


/-- The test made after the inner loop, `j == patternLen`, holds exactly at an occurrence. -/
theorem match_loop_eq_iff (text pattern : List Nat) (i : Nat)
    (hfit : i + pattern.length ≤ text.length) :
    ((match_loop text pattern i ((pattern.length : Int)).toNat 0 : Nat) : Int) =
        (pattern.length : Int) ↔ occurs_at text pattern i := by
  rw [Int.toNat_ofNat, occurs_at_iff text pattern i hfit]
  have h := (match_loop_spec text pattern i pattern.length 0).2
  rw [Nat.zero_add] at h
  rw [← h]
  exact Int.ofNat_inj

/-- The outer loop returns the first index of its range at which the pattern occurs, and -1
when there is none. -/
theorem findSubstring_loop_spec (text pattern : List Nat) (k i : Nat)
    (hrange : i + k + pattern.length ≤ text.length + 1) :
    (findSubstring_loop text pattern (pattern.length : Int) k i = -1 ∧
        ∀ c, i ≤ c → c < i + k → ¬ occurs_at text pattern c) ∨
      ∃ c : Nat, findSubstring_loop text pattern (pattern.length : Int) k i = (c : Int) ∧
        i ≤ c ∧ c < i + k ∧ occurs_at text pattern c ∧
        ∀ b, i ≤ b → b < c → ¬ occurs_at text pattern b := by
  induction k generalizing i with
  | zero =>
    left
    exact ⟨rfl, fun c h1 h2 => by omega⟩
  | succ k ih =>
    have hiff := match_loop_eq_iff text pattern i (by omega)
    rw [findSubstring_loop]
    by_cases hocc : occurs_at text pattern i
    · rw [if_pos (hiff.mpr hocc)]
      right
      exact ⟨i, rfl, le_refl _, by omega, hocc, fun b h1 h2 => by omega⟩
    · rw [if_neg (fun h => hocc (hiff.mp h))]
      rcases ih (i + 1) (by omega) with ⟨hr, hnone⟩ | ⟨c, hr, h1, h2, h3, h4⟩
      · left
        refine ⟨hr, fun c h1 h2 => ?_⟩
        rcases Nat.eq_or_lt_of_le h1 with heq | hlt
        · rw [← heq]
          exact hocc
        · exact hnone c (by omega) (by omega)
      · right
        refine ⟨c, hr, by omega, by omega, h3, fun b hb1 hb2 => ?_⟩
        rcases Nat.eq_or_lt_of_le hb1 with heq | hlt
        · rw [← heq]
          exact hocc
        · exact h4 b (by omega) hb2

/-- C20. For all strings whose lengths fit in an `int`: `findSubstring` returns 0 when the
pattern is empty; otherwise it returns -1 exactly when the pattern occurs nowhere in the text,
and it returns `i` exactly when `i` is the smallest index at which the pattern occurs
(characters compared as they are). -/
theorem findSubstring_correct (text pattern : List Nat) (ht : text.length ≤ 2147483647)
    (hp : pattern.length ≤ 2147483647) :
    (pattern = [] → findSubstring text pattern = 0) ∧
      (pattern ≠ [] →
        (findSubstring text pattern = -1 ↔ ∀ i, ¬ occurs_at text pattern i) ∧
          ∀ i : Nat, findSubstring text pattern = (i : Int) ↔
            (occurs_at text pattern i ∧ ∀ k, k < i → ¬ occurs_at text pattern k)) := by
  have htl := strlen_int_eq text ht
  have hpl := strlen_int_eq pattern hp
  constructor
  · intro hnil
    subst hnil
    simp only [findSubstring, hpl, List.length_nil, Nat.cast_zero, if_true]
  · intro hne
    have hpos : 0 < pattern.length := List.length_pos.mpr hne
    have hfits : ∀ i, occurs_at text pattern i → i + pattern.length ≤ text.length := by
      intro i h
      rcases occurs_at_fits text pattern i h with h0 | h0
      · exact absurd h0 hne
      · exact h0
    have hne0 : ¬ ((pattern.length : Int) = 0) := by omega
    by_cases hlong : (pattern.length : Int) > (text.length : Int)
    · have hres : findSubstring text pattern = -1 := by
        simp only [findSubstring, hpl, htl, if_neg hne0, if_pos hlong]
      have hnone : ∀ i, ¬ occurs_at text pattern i := by
        intro i h
        have := hfits i h
        omega
      rw [hres]
      refine ⟨⟨fun _ => hnone, fun _ => rfl⟩, fun i => ⟨fun h => by omega, fun h => ?_⟩⟩
      exact absurd h.1 (hnone i)
    · have hcount : ((text.length : Int) - (pattern.length : Int) + 1).toNat =
          text.length - pattern.length + 1 := by omega
      have hres : findSubstring text pattern =
          findSubstring_loop text pattern (pattern.length : Int)
            (text.length - pattern.length + 1) 0 := by
        simp only [findSubstring, hpl, htl, if_neg hne0, if_neg hlong, hcount]
      rw [hres]
      rcases findSubstring_loop_spec text pattern (text.length - pattern.length + 1) 0
        (by omega) with ⟨hr, hnone⟩ | ⟨c, hr, _, hc2, hc3, hc4⟩
      · have hnone' : ∀ i, ¬ occurs_at text pattern i := by
          intro i h
          have := hfits i h
          exact hnone i (by omega) (by omega) h
        rw [hr]
        refine ⟨⟨fun _ => hnone', fun _ => rfl⟩, fun i => ⟨fun h => by omega, fun h => ?_⟩⟩
        exact absurd h.1 (hnone' i)
      · rw [hr]
        refine ⟨⟨fun h => by omega, fun h => absurd hc3 (h c)⟩,
          fun i => ⟨fun h => ?_, fun h => ?_⟩⟩
        · have hci : c = i := by exact_mod_cast h
          subst hci
          exact ⟨hc3, fun k hk => hc4 k (by omega) hk⟩
        · have hci : c = i := by
            rcases Nat.lt_trichotomy c i with hlt | heq | hgt
            · exact absurd hc3 (h.2 c hlt)
            · exact heq
            · exact absurd h.1 (hc4 i (by omega) hgt)
          rw [hci]

/-- C20, instance: the text `abcbc` and the pattern `bc`. -/
theorem findSubstring_correct_witness :
    [97, 98, 99, 98, 99].length ≤ 2147483647 ∧ [98, 99].length ≤ 2147483647 ∧
      (([98, 99] : List Nat) = [] → findSubstring [97, 98, 99, 98, 99] [98, 99] = 0) ∧
      (([98, 99] : List Nat) ≠ [] →
        (findSubstring [97, 98, 99, 98, 99] [98, 99] = -1 ↔
          ∀ i, ¬ occurs_at [97, 98, 99, 98, 99] [98, 99] i) ∧
          ∀ i : Nat, findSubstring [97, 98, 99, 98, 99] [98, 99] = (i : Int) ↔
            (occurs_at [97, 98, 99, 98, 99] [98, 99] i ∧
              ∀ k, k < i → ¬ occurs_at [97, 98, 99, 98, 99] [98, 99] k)) :=
  ⟨by decide, by decide,
    findSubstring_correct [97, 98, 99, 98, 99] [98, 99] (by decide) (by decide)⟩

/-! ## `trimWhitespace` -/

theorem getD_at_length (pre : List Nat) (x : Nat) (rest : List Nat) :
    (pre ++ x :: rest).getD pre.length 0 = x := by
  rw [List.getD_append_right _ _ _ _ (Nat.le_refl _)]
  simp

theorem set_at_length (pre : List Nat) (x y : Nat) (rest : List Nat) :
    (pre ++ x :: rest).set pre.length y = pre ++ y :: rest := by
  rw [List.set_append_right _ _ (Nat.le_refl _)]
  simp

theorem isspace_ne_zero (c : Nat) (h : isspace c = true) : c ≠ 0 := by
  intro h0
  subst h0
  exact absurd h (by decide)

/-- The first loop stops on the first character that is not whitespace. -/
theorem skip_leading_spec (pre s rest : List Nat) :
    skip_leading (pre ++ s ++ 0 :: rest) pre.length =
      pre.length + (s.takeWhile isspace).length := by
  induction s generalizing pre with
  | nil =>
    rw [skip_leading]
    have hget : (pre ++ [] ++ 0 :: rest).getD pre.length 0 = 0 := by
      rw [List.append_nil]
      exact getD_at_length pre 0 rest
    rw [dif_neg (by rw [hget]; decide)]
    simp
  | cons c t ih =>
    have hget : (pre ++ c :: t ++ 0 :: rest).getD pre.length 0 = c := by
      rw [List.append_assoc, List.cons_append]
      exact getD_at_length pre c _
    rw [skip_leading]
    by_cases hc : isspace c = true
    · rw [dif_pos (by rw [hget]; exact hc)]
      have hshape : pre ++ c :: t ++ 0 :: rest = (pre ++ [c]) ++ t ++ 0 :: rest := by simp
      have hlen : pre.length + 1 = (pre ++ [c]).length := by simp
      rw [hshape, hlen, ih (pre ++ [c]), List.takeWhile_cons_of_pos hc]
      simp only [List.length_append, List.length_cons, List.length_nil]
      omega
    · rw [dif_neg (by rw [hget]; exact hc), List.takeWhile_cons_of_neg hc]
      simp

/-- The copying loop: with `P` already copied, a gap `G` of stale characters and `D` still to
copy, it ends with `P ++ D` at the front of the buffer, followed by NUL. -/
theorem shift_left_spec (P G D rest : List Nat) (hD : ∀ c ∈ D, c ≠ 0) :
    ∃ R, shift_left (P ++ G ++ D ++ 0 :: rest) (P.length + G.length) P.length =
        P ++ D ++ 0 :: R ∧
      R.length = G.length + rest.length ∧ (G = [] → R = rest) := by
  induction D generalizing P G with
  | nil =>
    have hget : (P ++ G ++ [] ++ 0 :: rest).getD (P.length + G.length) 0 = 0 := by
      have h := getD_at_length (P ++ G) 0 rest
      simpa using h
    rw [shift_left, dif_neg (by rw [hget]; simp)]
    cases G with
    | nil =>
      refine ⟨rest, ?_, by simp, fun _ => rfl⟩
      simp only [List.append_nil]
      exact set_at_length P 0 0 rest
    | cons g G0 =>
      refine ⟨G0 ++ 0 :: rest, ?_, by simp; omega, fun h => by cases h⟩
      simp
  | cons c D' ih =>
    have hc : c ≠ 0 := hD c (List.mem_cons_self _ _)
    have hD' : ∀ x ∈ D', x ≠ 0 := fun x hx => hD x (List.mem_cons_of_mem _ hx)
    have hget : (P ++ G ++ c :: D' ++ 0 :: rest).getD (P.length + G.length) 0 = c := by
      have h := getD_at_length (P ++ G) c (D' ++ 0 :: rest)
      simpa using h
    rw [shift_left, dif_pos (by rw [hget]; exact hc), hget]
    cases G with
    | nil =>
      have hset : (P ++ [] ++ c :: D' ++ 0 :: rest).set P.length c =
          (P ++ [c]) ++ [] ++ D' ++ 0 :: rest := by
        simp
      obtain ⟨R, hR, hlen, hnil⟩ := ih (P ++ [c]) [] hD'
      refine ⟨R, ?_, by simpa using hlen, fun _ => hnil rfl⟩
      rw [hset]
      simp only [List.length_nil, Nat.add_zero, List.length_append, List.length_singleton] at hR ⊢
      rw [hR]
      simp
    | cons g G0 =>
      have hset : (P ++ g :: G0 ++ c :: D' ++ 0 :: rest).set P.length c =
          (P ++ [c]) ++ (G0 ++ [c]) ++ D' ++ 0 :: rest := by
        simp
      obtain ⟨R, hR, hlen, _⟩ := ih (P ++ [c]) (G0 ++ [c]) hD'
      refine ⟨R, ?_, by simpa using hlen, fun h => by cases h⟩
      rw [hset]
      have hidx : P.length + (g :: G0).length + 1 = (P ++ [c]).length + (G0 ++ [c]).length := by
        rw [List.length_cons, List.length_append, List.length_append, List.length_singleton]
        omega
      have hw : P.length + 1 = (P ++ [c]).length := by simp
      rw [hidx, hw, hR]
      simp

theorem c_string_append_nul (t R : List Nat) (ht : ∀ c ∈ t, c ≠ 0) :
    c_string (t ++ 0 :: R) = t := by
  unfold c_string
  rw [List.takeWhile_append_of_pos (fun c hc => by simpa using ht c hc)]
  simp

theorem strlen_append_nul (t R : List Nat) (ht : ∀ c ∈ t, c ≠ 0) :
    strlen (t ++ 0 :: R) = t.length := by
  have h := c_string_append_nul t R ht
  unfold c_string at h
  unfold strlen
  rw [h]

theorem replicate_zero_append_cons (z : Nat) (R : List Nat) :
    List.replicate z 0 ++ 0 :: R = 0 :: (List.replicate z 0 ++ R) := by
  induction z with
  | zero => rfl
  | succ n ih =>
    rw [List.replicate_succ, List.cons_append, ih]
    rfl

/-- The last loop overwrites the trailing run of whitespace with NULs. -/
theorem trim_trailing_spec (d Z : List Nat) :
    trim_trailing d.length (d ++ Z) =
      d.rdropWhile isspace ++
        (List.replicate (d.length - (d.rdropWhile isspace).length) 0 ++ Z) := by
  induction d using List.reverseRecOn generalizing Z with
  | nil => simp [trim_trailing]
  | append_singleton d' c ih =>
    have hget : (d' ++ [c] ++ Z).getD d'.length 0 = c := by
      have h := getD_at_length d' c Z
      simpa using h
    have hlen : (d' ++ [c]).length = d'.length + 1 := by simp
    rw [hlen, trim_trailing, hget]
    by_cases hc : isspace c = true
    · rw [if_pos hc, List.rdropWhile_concat_pos _ _ _ hc]
      have hset : (d' ++ [c] ++ Z).set d'.length 0 = d' ++ 0 :: Z := by
        simp
      rw [hset, ih (0 :: Z)]
      have hle : (List.rdropWhile isspace d').length ≤ d'.length :=
        ( List.rdropWhile_prefix isspace d').length_le
      have hz : d'.length + 1 - (List.rdropWhile isspace d').length =
          (d'.length - (List.rdropWhile isspace d').length) + 1 := by omega
      rw [hz, replicate_zero_append_cons, List.replicate_succ, List.cons_append]
    · rw [if_neg hc, List.rdropWhile_concat_neg _ _ _ hc]
      simp

theorem trim_spec_length_le (s : List Nat) :
    (trim_spec s).length ≤ (s.dropWhile isspace).length :=
  ( List.rdropWhile_prefix isspace _).length_le

theorem trim_spec_mem (s : List Nat) (c : Nat) (h : c ∈ trim_spec s) : c ∈ s :=
  (List.dropWhile_sublist isspace).subset
    (( List.rdropWhile_prefix isspace (s.dropWhile isspace)).sublist.subset h)

/-- The buffer after `trimWhitespace`: the trimmed string, a NUL, and a remainder that is
untouched when there was nothing to trim. -/
theorem trimWhitespace_buffer (s rest : List Nat) (hs : ∀ c ∈ s, c ≠ 0)
    (hlen : s.length ≤ 2147483647) :
    ∃ R, trimWhitespace (s ++ 0 :: rest) = trim_spec s ++ 0 :: R ∧
      R.length = (s.length - (trim_spec s).length) + rest.length ∧
      (trim_spec s = s → R = rest) := by
  have hsplit : s.takeWhile isspace ++ s.dropWhile isspace = s :=
    List.takeWhile_append_dropWhile isspace s
  have hslen : s.length = (s.takeWhile isspace).length + (s.dropWhile isspace).length := by
    rw [← List.length_append, hsplit]
  have hd : ∀ c ∈ s.dropWhile isspace, c ≠ 0 :=
    fun c hc => hs c ((List.dropWhile_sublist isspace).subset hc)
  have hskip : skip_leading (s ++ 0 :: rest) 0 = (s.takeWhile isspace).length := by
    have h := skip_leading_spec [] s rest
    simpa using h
  obtain ⟨R, hR, hRlen, hRnil⟩ :=
    shift_left_spec [] (s.takeWhile isspace) (s.dropWhile isspace) rest hd
  simp only [List.nil_append, List.length_nil, Nat.zero_add] at hR
  rw [hsplit] at hR
  have htl := trim_spec_length_le s
  have hwrap : CInt.wrap_int (((s.dropWhile isspace).length : Int) - 1) =
      ((s.dropWhile isspace).length : Int) - 1 :=
    CInt.wrap_int_of_range _ (by omega) (by omega)
  have hnat : (((s.dropWhile isspace).length : Int) - 1 + 1).toNat =
      (s.dropWhile isspace).length := by
    rw [Int.sub_add_cancel]
    exact Int.toNat_ofNat _
  refine ⟨List.replicate ((s.dropWhile isspace).length - (trim_spec s).length) 0 ++ R,
    ?_, ?_, ?_⟩
  · unfold trimWhitespace
    simp only []
    rw [hskip, hR, strlen_append_nul _ _ hd, hwrap, hnat, trim_trailing_spec,
      replicate_zero_append_cons]
    rfl
  · rw [List.length_append, List.length_replicate, hRlen]
    omega
  · intro heq
    have hl : (trim_spec s).length = s.length := by rw [heq]
    have h0 : (s.takeWhile isspace).length = 0 := by omega
    have hz : (s.dropWhile isspace).length - (trim_spec s).length = 0 := by omega
    rw [hz, hRnil (List.length_eq_zero.mp h0)]
    rfl

theorem trim_spec_idempotent (s : List Nat) : trim_spec (trim_spec s) = trim_spec s := by
  unfold trim_spec
  have hhead : List.dropWhile isspace (List.rdropWhile isspace (List.dropWhile isspace s)) =
      List.rdropWhile isspace (List.dropWhile isspace s) := by
    obtain ⟨r, hr⟩ := List.rdropWhile_prefix isspace (List.dropWhile isspace s)
    have hnot := List.head?_dropWhile_not isspace s
    cases ht : List.rdropWhile isspace (List.dropWhile isspace s) with
    | nil => rfl
    | cons c t =>
      rw [ht] at hr
      rw [← hr] at hnot
      simp only [List.cons_append, List.head?_cons] at hnot
      rw [List.dropWhile_cons_of_neg (by rw [hnot]; decide)]
  rw [hhead, List.rdropWhile_idempotent]

theorem trim_spec_decompose (s : List Nat) :
    ∃ lead trail, s = lead ++ trim_spec s ++ trail ∧
      (∀ c ∈ lead, isspace c = true) ∧ (∀ c ∈ trail, isspace c = true) := by
  refine ⟨s.takeWhile isspace,
    ((s.dropWhile isspace).reverse.takeWhile isspace).reverse, ?_, ?_, ?_⟩
  · have h1 := List.takeWhile_append_dropWhile isspace (s.dropWhile isspace).reverse
    have h2 : (s.dropWhile isspace) =
        ((s.dropWhile isspace).reverse.dropWhile isspace).reverse ++
          ((s.dropWhile isspace).reverse.takeWhile isspace).reverse := by
      rw [← List.reverse_append, h1, List.reverse_reverse]
    have h3 : trim_spec s = ((s.dropWhile isspace).reverse.dropWhile isspace).reverse := rfl
    rw [List.append_assoc, h3, ← h2, List.takeWhile_append_dropWhile]
  · intro c hc
    exact List.mem_takeWhile_imp hc
  · intro c hc
    exact List.mem_takeWhile_imp (List.mem_reverse.mp hc)

theorem trim_spec_head (s : List Nat) (c : Nat) (h : (trim_spec s).head? = some c) :
    isspace c = false := by
  obtain ⟨r, hr⟩ := List.rdropWhile_prefix isspace (List.dropWhile isspace s)
  have hnot := List.head?_dropWhile_not isspace s
  unfold trim_spec at h
  cases ht : List.rdropWhile isspace (List.dropWhile isspace s) with
  | nil =>
    rw [ht] at h
    cases h
  | cons x t =>
    rw [ht] at h hr
    rw [← hr] at hnot
    simp only [List.cons_append, List.head?_cons] at hnot h
    cases h
    exact hnot

theorem trim_spec_last (s : List Nat) (c : Nat) (h : (trim_spec s).getLast? = some c) :
    isspace c = false := by
  unfold trim_spec at h
  have hne : List.rdropWhile isspace (List.dropWhile isspace s) ≠ [] := by
    intro h0
    rw [h0] at h
    cases h
  have hnot := List.rdropWhile_last_not isspace (List.dropWhile isspace s) hne
  rw [List.getLast?_eq_getLast _ hne] at h
  cases h
  simpa using hnot

theorem trim_spec_of_all_space (s : List Nat) (h : ∀ c ∈ s, isspace c = true) :
    trim_spec s = [] := by
  unfold trim_spec
  rw [List.dropWhile_eq_nil_iff.mpr h]
  rfl

/-- C21. On a buffer holding the string `s` (NUL-free, followed by its NUL and anything after
it), `trimWhitespace` leaves the string `trim_spec s`: `s` is a run of whitespace, then
`trim_spec s`, then a run of whitespace, and `trim_spec s` neither begins nor ends with
whitespace, so the two runs removed are the maximal ones and what lies between them is kept
unchanged and in order; an all-whitespace `s` becomes the empty string; and a second call
leaves the whole buffer as the first call left it. -/
theorem trimWhitespace_correct (s rest : List Nat) (hs : ∀ c ∈ s, c ≠ 0)
    (hlen : s.length ≤ 2147483647) :
    c_string (trimWhitespace (s ++ 0 :: rest)) = trim_spec s ∧
    (∃ lead trail, s = lead ++ trim_spec s ++ trail ∧
      (∀ c ∈ lead, isspace c = true) ∧ (∀ c ∈ trail, isspace c = true)) ∧
    (∀ c, (trim_spec s).head? = some c → isspace c = false) ∧
    (∀ c, (trim_spec s).getLast? = some c → isspace c = false) ∧
    ((∀ c ∈ s, isspace c = true) → c_string (trimWhitespace (s ++ 0 :: rest)) = []) ∧
    trimWhitespace (trimWhitespace (s ++ 0 :: rest)) = trimWhitespace (s ++ 0 :: rest) := by
  have ht : ∀ c ∈ trim_spec s, c ≠ 0 := fun c hc => hs c (trim_spec_mem s c hc)
  have htlen : (trim_spec s).length ≤ 2147483647 := by
    have h1 := trim_spec_length_le s
    have h2 := (List.dropWhile_sublist isspace : (s.dropWhile isspace).Sublist s).length_le
    omega
  obtain ⟨R, hR, _, _⟩ := trimWhitespace_buffer s rest hs hlen
  have hstr : c_string (trimWhitespace (s ++ 0 :: rest)) = trim_spec s := by
    rw [hR]
    exact c_string_append_nul _ _ ht
  refine ⟨hstr, trim_spec_decompose s, trim_spec_head s, trim_spec_last s, ?_, ?_⟩
  · intro hall
    rw [hstr]
    exact trim_spec_of_all_space s hall
  · obtain ⟨R2, hR2, _, hfix⟩ := trimWhitespace_buffer (trim_spec s) R ht htlen
    rw [hR, hR2, trim_spec_idempotent, hfix (trim_spec_idempotent s)]

theorem trimWhitespace_correct_witness :
    (∀ c ∈ [32, 32, 72, 105, 32, 32, 87, 32], c ≠ 0) ∧
    [32, 32, 72, 105, 32, 32, 87, 32].length ≤ 2147483647 ∧
    (c_string (trimWhitespace ([32, 32, 72, 105, 32, 32, 87, 32] ++ 0 :: [7])) =
        trim_spec [32, 32, 72, 105, 32, 32, 87, 32] ∧
      (∃ lead trail, [32, 32, 72, 105, 32, 32, 87, 32] =
          lead ++ trim_spec [32, 32, 72, 105, 32, 32, 87, 32] ++ trail ∧
        (∀ c ∈ lead, isspace c = true) ∧ (∀ c ∈ trail, isspace c = true)) ∧
      (∀ c, (trim_spec [32, 32, 72, 105, 32, 32, 87, 32]).head? = some c →
        isspace c = false) ∧
      (∀ c, (trim_spec [32, 32, 72, 105, 32, 32, 87, 32]).getLast? = some c →
        isspace c = false) ∧
      ((∀ c ∈ [32, 32, 72, 105, 32, 32, 87, 32], isspace c = true) →
        c_string (trimWhitespace ([32, 32, 72, 105, 32, 32, 87, 32] ++ 0 :: [7])) = []) ∧
      trimWhitespace (trimWhitespace ([32, 32, 72, 105, 32, 32, 87, 32] ++ 0 :: [7])) =
        trimWhitespace ([32, 32, 72, 105, 32, 32, 87, 32] ++ 0 :: [7])) :=
  ⟨by decide, by decide,
    trimWhitespace_correct [32, 32, 72, 105, 32, 32, 87, 32] [7] (by decide) (by decide)⟩

/-! ## `countWords` -/

theorem splitOnP_head (t : List Nat) :
    ∃ h X, t.splitOnP isspace = h :: X ∧ h.isEmpty = !starts_word t := by
  cases t with
  | nil => exact ⟨[], [], rfl, rfl⟩
  | cons c t' =>
    rw [List.splitOnP_cons]
    by_cases hc : isspace c = true
    · rw [if_pos hc]
      exact ⟨[], _, rfl, by simp [starts_word, hc]⟩
    · rw [if_neg hc]
      cases hX : List.splitOnP isspace t' with
      | nil => exact absurd hX (List.splitOnP_ne_nil _ _)
      | cons h X =>
        refine ⟨c :: h, X, rfl, ?_⟩
        simp [starts_word, hc]

theorem word_runs_nil : word_runs [] = [] := rfl

theorem word_runs_length_cons (c : Nat) (t : List Nat) :
    (word_runs (c :: t)).length =
      if isspace c = true then (word_runs t).length
      else if starts_word t = true then (word_runs t).length
      else (word_runs t).length + 1 := by
  unfold word_runs
  rw [List.splitOnP_cons]
  by_cases hc : isspace c = true
  · rw [if_pos hc, if_pos hc]
    rfl
  · rw [if_neg hc, if_neg hc]
    obtain ⟨h, X, hX, hh⟩ := splitOnP_head t
    rw [hX]
    cases hs : starts_word t with
    | true =>
      rw [hs] at hh
      simp only [Bool.not_true] at hh
      simp [List.modifyHead, List.filter_cons, hh]
    | false =>
      rw [hs] at hh
      simp only [Bool.not_false] at hh
      simp [List.modifyHead, List.filter_cons, hh]

/-- The loop of `countWords` from a position inside the string: what it adds to `count` is the
number of runs of the rest, less the run already counted when the position is inside it. -/
theorem countWords_loop_spec (s pre rest : List Nat) (inWord : Bool) (count : Int)
    (hs : ∀ c ∈ s, c ≠ 0) (hc : count ≤ pre.length) (h0 : 0 ≤ count)
    (hlen : (pre ++ s).length ≤ 2147483647) :
    countWords_loop (pre ++ s ++ 0 :: rest) pre.length inWord count =
      count + (word_runs s).length - (if (inWord && starts_word s) = true then 1 else 0) := by
  induction s generalizing pre inWord count with
  | nil =>
    have hget : (pre ++ [] ++ 0 :: rest).getD pre.length 0 = 0 := by
      rw [List.append_nil]
      exact getD_at_length pre 0 rest
    rw [countWords_loop, dif_neg (by rw [hget]; simp)]
    simp [word_runs_nil, starts_word]
  | cons c t ih =>
    have hc0 : c ≠ 0 := hs c (List.mem_cons_self _ _)
    have ht : ∀ x ∈ t, x ≠ 0 := fun x hx => hs x (List.mem_cons_of_mem _ hx)
    have hget : (pre ++ c :: t ++ 0 :: rest).getD pre.length 0 = c := by
      rw [List.append_assoc, List.cons_append]
      exact getD_at_length pre c _
    have hshape : pre ++ c :: t ++ 0 :: rest = (pre ++ [c]) ++ t ++ 0 :: rest := by simp
    have hidx : pre.length + 1 = (pre ++ [c]).length := by simp
    have hlen2 : ((pre ++ [c]) ++ t).length ≤ 2147483647 := by
      simpa using hlen
    have hpre : (((pre ++ [c]).length : Nat) : Int) = (pre.length : Int) + 1 := by simp
    have htot : (pre.length : Int) + 1 ≤ 2147483647 := by
      have h : (pre ++ c :: t).length = pre.length + t.length + 1 := by
        simp only [List.length_append, List.length_cons]
        omega
      omega
    rw [countWords_loop, dif_pos (by rw [hget]; exact hc0), hget, hshape, hidx,
      word_runs_length_cons]
    by_cases hsp : isspace c = true
    · rw [if_pos hsp, if_pos hsp, ih (pre ++ [c]) false count ht (by omega) h0 hlen2]
      simp [starts_word, hsp]
    · rw [if_neg hsp, if_neg hsp]
      cases inWord with
      | false =>
        have hw : CInt.wrap_int (count + 1) = count + 1 :=
          CInt.wrap_int_of_range _ (by omega) (by omega)
        rw [if_pos (by rfl), hw, ih (pre ++ [c]) true (count + 1) ht (by omega) (by omega) hlen2]
        cases hst : starts_word t with
        | true =>
          simp
          omega
        | false =>
          simp
          omega
      | true =>
        rw [if_neg (by decide), ih (pre ++ [c]) true count ht (by omega) h0 hlen2]
        cases hst : starts_word t with
        | true => simp [starts_word, hsp]
        | false =>
          simp [starts_word, hsp]
          omega

theorem countWords_eq_runs (s rest : List Nat) (hs : ∀ c ∈ s, c ≠ 0)
    (hlen : s.length ≤ 2147483647) :
    countWords (s ++ 0 :: rest) = ((word_runs s).length : Int) := by
  have h := countWords_loop_spec s [] rest false 0 hs (by simp) (le_refl _) (by simpa using hlen)
  simpa [countWords] using h

theorem word_runs_length_space_append (lead x : List Nat) (h : ∀ c ∈ lead, isspace c = true) :
    (word_runs (lead ++ x)).length = (word_runs x).length := by
  induction lead with
  | nil => rfl
  | cons c t ih =>
    have hc : isspace c = true := h c (List.mem_cons_self _ _)
    rw [List.cons_append, word_runs_length_cons, if_pos hc]
    exact ih (fun x hx => h x (List.mem_cons_of_mem _ hx))

theorem word_runs_length_of_all_space (s : List Nat) (h : ∀ c ∈ s, isspace c = true) :
    (word_runs s).length = 0 := by
  have h1 := word_runs_length_space_append s [] h
  rw [List.append_nil] at h1
  rw [h1]
  rfl

theorem starts_word_of_all_space (s : List Nat) (h : ∀ c ∈ s, isspace c = true) :
    starts_word s = false := by
  cases s with
  | nil => rfl
  | cons c t => simp [starts_word, h c (List.mem_cons_self _ _)]

theorem word_runs_length_append_space (s trail : List Nat)
    (h : ∀ c ∈ trail, isspace c = true) :
    (word_runs (s ++ trail)).length = (word_runs s).length := by
  induction s with
  | nil =>
    rw [List.nil_append, word_runs_length_of_all_space trail h]
    rfl
  | cons c t ih =>
    have hst : starts_word (t ++ trail) = starts_word t := by
      cases t with
      | nil => exact starts_word_of_all_space trail h
      | cons x t2 => rfl
    rw [List.cons_append, word_runs_length_cons, word_runs_length_cons, ih, hst]

theorem word_runs_length_repeated_space (a ws b : List Nat) (sp : Nat)
    (hsp : isspace sp = true) (h : ∀ c ∈ ws, isspace c = true) :
    (word_runs (a ++ sp :: (ws ++ b))).length = (word_runs (a ++ sp :: b)).length := by
  induction a with
  | nil =>
    rw [List.nil_append, List.nil_append, word_runs_length_cons, if_pos hsp,
      word_runs_length_cons, if_pos hsp, word_runs_length_space_append ws b h]
  | cons c t ih =>
    have hst : starts_word (t ++ sp :: (ws ++ b)) = starts_word (t ++ sp :: b) := by
      cases t with
      | nil => simp [starts_word, hsp]
      | cons x t2 => rfl
    rw [List.cons_append, List.cons_append, word_runs_length_cons, word_runs_length_cons,
      ih, hst]

theorem splitOnP_no_space (s : List Nat) :
    ∀ w ∈ s.splitOnP isspace, ∀ c ∈ w, isspace c = false := by
  induction s with
  | nil =>
    intro w hw c hc
    rw [List.splitOnP_nil, List.mem_singleton] at hw
    subst hw
    cases hc
  | cons x t ih =>
    intro w hw c hc
    rw [List.splitOnP_cons] at hw
    by_cases hx : isspace x = true
    · rw [if_pos hx, List.mem_cons] at hw
      rcases hw with hw | hw
      · subst hw
        cases hc
      · exact ih w hw c hc
    · rw [if_neg hx] at hw
      cases hX : List.splitOnP isspace t with
      | nil => exact absurd hX (List.splitOnP_ne_nil _ _)
      | cons h X =>
        rw [hX] at hw ih
        simp only [List.modifyHead, List.mem_cons] at hw
        rcases hw with hw | hw
        · subst hw
          rcases List.mem_cons.mp hc with hc | hc
          · subst hc
            simpa using hx
          · exact ih h (List.mem_cons_self _ _) c hc
        · exact ih w (List.mem_cons_of_mem _ hw) c hc

theorem word_runs_spec (s : List Nat) :
    ∀ w ∈ word_runs s, w ≠ [] ∧ ∀ c ∈ w, isspace c = false := by
  intro w hw
  unfold word_runs at hw
  rw [List.mem_filter] at hw
  refine ⟨?_, splitOnP_no_space s w hw.1⟩
  intro h0
  rw [h0] at hw
  exact absurd hw.2 (by decide)

/-- C22. On a buffer holding the string `s` (NUL-free, followed by its NUL), `countWords`
returns the number of maximal runs of non-whitespace characters of `s`, the non-empty pieces
into which its whitespace characters split it; so the empty string and every all-whitespace
string give 0, whitespace added before or after the string does not change the count, and
neither does widening a whitespace character inside it to a longer run of whitespace. -/
theorem countWords_correct (s rest : List Nat) (hs : ∀ c ∈ s, c ≠ 0)
    (hlen : s.length ≤ 2147483647) :
    countWords (s ++ 0 :: rest) = ((word_runs s).length : Int) ∧
    (∀ w ∈ word_runs s, w ≠ [] ∧ ∀ c ∈ w, isspace c = false) ∧
    countWords (0 :: rest) = 0 ∧
    ((∀ c ∈ s, isspace c = true) → countWords (s ++ 0 :: rest) = 0) ∧
    (∀ lead trail : List Nat, (∀ c ∈ lead, isspace c = true) →
      (∀ c ∈ trail, isspace c = true) → (lead ++ s ++ trail).length ≤ 2147483647 →
      countWords (lead ++ s ++ trail ++ 0 :: rest) = countWords (s ++ 0 :: rest)) ∧
    (∀ (a b ws : List Nat) (sp : Nat), s = a ++ sp :: b → isspace sp = true →
      (∀ c ∈ ws, isspace c = true) → (a ++ sp :: (ws ++ b)).length ≤ 2147483647 →
      countWords (a ++ sp :: (ws ++ b) ++ 0 :: rest) = countWords (s ++ 0 :: rest)) := by
  have hmain := countWords_eq_runs s rest hs hlen
  refine ⟨hmain, word_runs_spec s, ?_, ?_, ?_, ?_⟩
  · have h := countWords_eq_runs [] rest (by simp) (by simp)
    simpa [word_runs_nil] using h
  · intro hall
    rw [hmain, word_runs_length_of_all_space s hall]
    rfl
  · intro lead trail hlead htrail hbound
    have hnul : ∀ c ∈ lead ++ s ++ trail, c ≠ 0 := by
      intro c hc
      rcases List.mem_append.mp hc with hc | hc
      · rcases List.mem_append.mp hc with hc | hc
        · exact isspace_ne_zero c (hlead c hc)
        · exact hs c hc
      · exact isspace_ne_zero c (htrail c hc)
    rw [countWords_eq_runs (lead ++ s ++ trail) rest hnul hbound, hmain,
      word_runs_length_append_space _ trail htrail,
      word_runs_length_space_append lead s hlead]
  · intro a b ws sp hsplit hsp hws hbound
    have hnul : ∀ c ∈ a ++ sp :: (ws ++ b), c ≠ 0 := by
      intro c hc
      rcases List.mem_append.mp hc with hc | hc
      · exact hs c (by rw [hsplit]; exact List.mem_append_left _ hc)
      · rcases List.mem_cons.mp hc with hc | hc
        · rw [hc]
          exact isspace_ne_zero sp hsp
        · rcases List.mem_append.mp hc with hc | hc
          · exact isspace_ne_zero c (hws c hc)
          · exact hs c (by
              rw [hsplit]
              exact List.mem_append_right _ (List.mem_cons_of_mem _ hc))
    rw [countWords_eq_runs (a ++ sp :: (ws ++ b)) rest hnul hbound, hmain, hsplit,
      word_runs_length_repeated_space a ws b sp hsp hws]

theorem countWords_correct_witness :
    (∀ c ∈ [32, 72, 105, 32, 32, 67, 32], c ≠ 0) ∧
    [32, 72, 105, 32, 32, 67, 32].length ≤ 2147483647 ∧
    (countWords ([32, 72, 105, 32, 32, 67, 32] ++ 0 :: [7]) =
        ((word_runs [32, 72, 105, 32, 32, 67, 32]).length : Int) ∧
      (∀ w ∈ word_runs [32, 72, 105, 32, 32, 67, 32],
        w ≠ [] ∧ ∀ c ∈ w, isspace c = false) ∧
      countWords (0 :: [7]) = 0 ∧
      ((∀ c ∈ [32, 72, 105, 32, 32, 67, 32], isspace c = true) →
        countWords ([32, 72, 105, 32, 32, 67, 32] ++ 0 :: [7]) = 0) ∧
      (∀ lead trail : List Nat, (∀ c ∈ lead, isspace c = true) →
        (∀ c ∈ trail, isspace c = true) →
        (lead ++ [32, 72, 105, 32, 32, 67, 32] ++ trail).length ≤ 2147483647 →
        countWords (lead ++ [32, 72, 105, 32, 32, 67, 32] ++ trail ++ 0 :: [7]) =
          countWords ([32, 72, 105, 32, 32, 67, 32] ++ 0 :: [7])) ∧
      (∀ (a b ws : List Nat) (sp : Nat), [32, 72, 105, 32, 32, 67, 32] = a ++ sp :: b →
        isspace sp = true → (∀ c ∈ ws, isspace c = true) →
        (a ++ sp :: (ws ++ b)).length ≤ 2147483647 →
        countWords (a ++ sp :: (ws ++ b) ++ 0 :: [7]) =
          countWords ([32, 72, 105, 32, 32, 67, 32] ++ 0 :: [7]))) :=
  ⟨by decide, by decide,
    countWords_correct [32, 72, 105, 32, 32, 67, 32] [7] (by decide) (by decide)⟩

end StringProcessing
